import Mathlib

/-!
# Points ledger: credit, spend and balance

A shallow embedding of the three request handlers of the points service
(`handlers/handlers.go`) and of the record they store (`models/transaction.go`).

Modelling conventions.

* The database table `transactions` is a list of rows in insertion order.  Rows are never
  deleted by the handlers, so the soft-delete column of `gorm.Model` is always unset and is
  left out, as are the `CreatedAt`/`UpdatedAt` audit columns.
* A Go `int` is a 64-bit two's-complement integer (a 64-bit platform).  Values are carried as
  integers and every
  addition, subtraction and negation of the handlers goes through `wrap`, which reduces the
  exact result to the 64-bit range as the machine does.  The one exception is the statement
  `t.Points -= pointsToSpend`, which runs only when `0 < pointsToSpend < t.Points` and so cannot
  leave the range (`wrap_sub_of_lt`).
* A `time.Time` is an instant together with a location pointer; the zero value of the type is
  the zero instant with the nil pointer.  The table column keeps the instant.
* A Go `map[string]int` is an association list with distinct keys, in order of first insertion.
  Go iterates maps in an unspecified order, so results about the response of a spend are stated
  up to the order of the entries (through lookups, sums and permutations).
* Reads and inserts of the database always succeed.  The batch update `DB.Save` fails on an
  empty slice, as gorm does; the other `500` branches of the handlers are not modelled.
* `ORDER BY timestamp` is modelled as a stable sort: rows with equal timestamps stay in insertion
  order.
-/

namespace handlers

/-! ## Machine integers and time -/

/-- The value a Go `int` holds after an operation whose exact result is `x`: the representative
of `x` modulo `2^64` in the range from `-2^63` to `2^63 - 1`. -/
def wrap (x : Int) : Int :=
  (x + 9223372036854775808) % 18446744073709551616 - 9223372036854775808

/-- The range of a Go `int`: from `-2^63` to `2^63 - 1`. -/
abbrev InRange (x : Int) : Prop :=
  -9223372036854775808 ≤ x ∧ x < 9223372036854775808

/-- A `time.Time` without monotonic reading: the instant, as an offset from Go's zero time, and
the location pointer, `none` for the nil pointer (UTC) and `some off` for a location with offset
`off`. -/
structure Time where
  instant : Int
  loc : Option Int
  deriving DecidableEq, Repr

/-- The zero value `time.Time{}`: what a request body without timestamp decodes to, and what the
text `0001-01-01T00:00:00Z` decodes to. -/
def zeroTime : Time :=
  { instant := 0, loc := none }

/-! ## Data model -/

/-- The record `models.Transaction`: primary key, payer, points and the instant of the
timestamp. -/
structure Transaction where
  ID : Nat
  Payer : String
  Points : Int
  Timestamp : Int
  deriving DecidableEq, Repr

/-- The table of transactions, in insertion order. -/
abbrev DB := List Transaction

/-- The request body `AddPointsRequest`, after JSON decoding: a field that is missing from the
body holds the zero value of its type. -/
structure AddPointsRequest where
  Payer : String
  Points : Int
  Timestamp : Time
  deriving DecidableEq, Repr

/-- The request body `SpendPointsRequest`, after JSON decoding. -/
structure SpendPointsRequest where
  Points : Int
  deriving DecidableEq, Repr

/-- One entry `SpendPointsResponse` of the answer to a spend. -/
structure SpendPointsResponse where
  Payer : String
  Points : Int
  deriving DecidableEq, Repr

/-- What a handler writes to the client. `ok` is status 200 with a body, `bindFailed` is the
status 400 sent when `ShouldBindJSON` rejects the request, `notEnoughPoints` is the status 400
with the message "Not enough points", `updateFailed` is the status 500 with the message
"Failed to update points". -/
inductive Reply (α : Type) where
  | ok (body : α)
  | bindFailed
  | notEnoughPoints
  | updateFailed
  deriving DecidableEq, Repr

/-! ## Go maps from `string` to `int` -/

/-- A Go `map[string]int`, as an association list in order of first insertion. -/
abbrev PointsMap := List (String × Int)

/-- Lookup of a key: `none` when the key is not in the map. -/
def mapLookup : PointsMap → String → Option Int
  | [], _ => none
  | (k, v) :: rest, p => if k = p then some v else mapLookup rest p

/-- The Go statement `m[k] += v`: an absent key reads as `0` and is inserted; the addition is
that of `int`. -/
def mapAddAssign : PointsMap → String → Int → PointsMap
  | [], k, v => [(k, wrap (0 + v))]
  | (k', v') :: rest, k, v =>
    if k' = k then (k', wrap (v' + v)) :: rest else (k', v') :: mapAddAssign rest k v

/-! ## Request binding -/

/-- The check made by `ShouldBindJSON` on an `AddPointsRequest`: each of the three fields carries
the tag `binding:"required"`, which rejects the zero value of the field's type. For the
timestamp that is the struct `time.Time{}` only: the zero instant with a location set, as
decoded from `0001-01-01T00:00:00+00:00`, passes. -/
def bindAddPoints (req : AddPointsRequest) : Bool :=
  decide (req.Payer ≠ "") && decide (req.Points ≠ 0) && decide (req.Timestamp ≠ zeroTime)

/-- The check made by `ShouldBindJSON` on a `SpendPointsRequest`: `Points` is `required`, so the
value `0` is rejected. -/
def bindSpendPoints (req : SpendPointsRequest) : Bool :=
  decide (req.Points ≠ 0)

/-! ## Database operations -/

/-- The primary key given to a new row: larger than every key in the table. -/
def nextID (db : DB) : Nat :=
  (db.map (fun t => t.ID)).foldr max 0 + 1

/-- The call `DB.Create(&transaction)`: appends the row under a fresh primary key. -/
def Create (db : DB) (payer : String) (points : Int) (timestamp : Time) : DB :=
  db ++ [{ ID := nextID db, Payer := payer, Points := points, Timestamp := timestamp.instant }]

/-- The query `DB.Order("timestamp").Find(&transactions)`. -/
def orderByTimestamp (db : DB) : List Transaction :=
  db.insertionSort (fun a b => a.Timestamp ≤ b.Timestamp)

/-- The table after a batch update: every row whose primary key occurs in `transactions` is
overwritten by the record with that key. -/
def overwrite (db : DB) (transactions : List Transaction) : DB :=
  db.map (fun row =>
    match transactions.find? (fun t => t.ID == row.ID) with
    | some t => t
    | none => row)

/-- The call `DB.Save(&transactions)`: `none` is the error gorm returns for an empty slice,
otherwise the rows are overwritten by primary key. -/
def Save (db : DB) (transactions : List Transaction) : Option DB :=
  if transactions.isEmpty then none else some (overwrite db transactions)

/-! ## Handlers -/

/-- The handler `AddPoints`. -/
def AddPoints (db : DB) (req : AddPointsRequest) : Reply Unit × DB :=
  if bindAddPoints req then
    (Reply.ok (), Create db req.Payer req.Points req.Timestamp)
  else
    (Reply.bindFailed, db)

/-- The first loop of `SpendPoints`: the sum of the points of all transactions, accumulated in
an `int`. -/
def totalPoints (transactions : List Transaction) : Int :=
  transactions.foldl (fun acc t => wrap (acc + t.Points)) 0

/-- The allocation loop of `SpendPoints`,
`for i := 0; i < len(transactions) && pointsToSpend > 0; i++`, run on the part of the slice that
has not been visited yet. It returns the slice as the loop leaves it, the final `pointsToSpend`
and the final `spentPoints`. The subtraction `pointsToSpend -= t.Points` and the additions to
`spentPoints` are those of `int`; `t.Points -= pointsToSpend` runs with
`0 < pointsToSpend < t.Points` and is exact. -/
def spendLoop : List Transaction → Int → PointsMap → List Transaction × Int × PointsMap
  | [], pointsToSpend, spentPoints => ([], pointsToSpend, spentPoints)
  | t :: rest, pointsToSpend, spentPoints =>
    if pointsToSpend > 0 then
      if t.Points ≤ pointsToSpend then
        let r := spendLoop rest (wrap (pointsToSpend - t.Points))
          (mapAddAssign spentPoints t.Payer t.Points)
        ({ t with Points := 0 } :: r.1, r.2)
      else
        let r := spendLoop rest 0 (mapAddAssign spentPoints t.Payer pointsToSpend)
        ({ t with Points := t.Points - pointsToSpend } :: r.1, r.2)
    else
      (t :: rest, pointsToSpend, spentPoints)

/-- The loop that builds the response of `SpendPoints` from `spentPoints`, with the negation of
`int`. A map without key gives the nil slice, here the empty list. -/
def buildResponse (spentPoints : PointsMap) : List SpendPointsResponse :=
  spentPoints.map (fun e => { Payer := e.1, Points := wrap (-e.2) })

/-- The handler `SpendPoints`. -/
def SpendPoints (db : DB) (req : SpendPointsRequest) : Reply (List SpendPointsResponse) × DB :=
  if bindSpendPoints req then
    let transactions := orderByTimestamp db
    if totalPoints transactions < req.Points then
      (Reply.notEnoughPoints, db)
    else
      let r := spendLoop transactions req.Points []
      match Save db r.1 with
      | some db' => (Reply.ok (buildResponse r.2.2), db')
      | none => (Reply.updateFailed, db)
  else
    (Reply.bindFailed, db)

/-- The handler `GetBalance`: the map it sends with status 200. -/
def GetBalance (db : DB) : PointsMap :=
  db.foldl (fun balance t => mapAddAssign balance t.Payer t.Points) []

/-! ## Derived notions used to state the properties -/

/-- The transactions on which the body of the allocation loop runs, in order, as they are before
the loop. -/
def visited : List Transaction → Int → List Transaction
  | [], _ => []
  | t :: rest, pointsToSpend =>
    if pointsToSpend > 0 then
      t :: visited rest (if t.Points ≤ pointsToSpend then wrap (pointsToSpend - t.Points) else 0)
    else
      []

/-- The exact sum of the points of a list of transactions. -/
def sumPoints (l : List Transaction) : Int :=
  (l.map (fun t => t.Points)).sum

/-- The exact sum of the points of the transactions of one payer. -/
def payerPoints (p : String) (l : List Transaction) : Int :=
  ((l.filter (fun t => t.Payer = p)).map (fun t => t.Points)).sum

/-- The exact sum of the absolute values of the negative points of a list of transactions. -/
def negPoints (l : List Transaction) : Int :=
  (l.map (fun t => max (-t.Points) 0)).sum

/-- The exact sum of the points of the accepted requests of a list that name a payer. -/
def creditedPoints (p : String) (reqs : List AddPointsRequest) : Int :=
  (((reqs.filter (fun r => bindAddPoints r)).filter (fun r => r.Payer = p)).map
    (fun r => r.Points)).sum

/-- The delta a response reports for a payer, `none` when the payer has no entry. -/
def responseDelta : List SpendPointsResponse → String → Option Int
  | [], _ => none
  | e :: rest, p => if e.Payer = p then some e.Points else responseDelta rest p

/-- The ledger after a list of `AddPoints` requests, handled in order. -/
def addAll (db : DB) (reqs : List AddPointsRequest) : DB :=
  reqs.foldl (fun d req => (AddPoints d req).2) db

/-- The value a Go map yields for a key: `0` when the key is absent. -/
def mapGet (m : PointsMap) (p : String) : Int :=
  (mapLookup m p).getD 0

/-- The keys of a map, in order of first insertion. -/
def mapKeys (m : PointsMap) : List String :=
  m.map (fun e => e.1)

/-- The exact sum of the values of a map. -/
def mapSum (m : PointsMap) : Int :=
  (m.map (fun e => e.2)).sum

/-- How the loop may change one transaction: key, payer and timestamp stay, and the points move
toward zero without passing it. -/
def Depleted (old new : Transaction) : Prop :=
  new.ID = old.ID ∧ new.Payer = old.Payer ∧ new.Timestamp = old.Timestamp ∧
    (0 ≤ old.Points → 0 ≤ new.Points ∧ new.Points ≤ old.Points) ∧
    (old.Points ≤ 0 → old.Points ≤ new.Points ∧ new.Points ≤ 0)

/-- The points of the transaction at a position of a list, `none` past the end. -/
def pointsAt (l : List Transaction) (i : Nat) : Option Int :=
  (l[i]?).map (fun t => t.Points)

/-! ## Example ledgers -/

/-- A ledger with a negative row first: A -200, B +300, A +100, in timestamp order. -/
def ledgerMixed : DB :=
  [⟨1, "A", -200, 1⟩, ⟨2, "B", 300, 2⟩, ⟨3, "A", 100, 3⟩]

/-- A ledger of two rows of one payer with total 100. -/
def ledgerSmall : DB :=
  [⟨1, "DANNON", 300, 1⟩, ⟨2, "DANNON", -200, 2⟩]

/-- The ledger built by the credits A -300, A +300 and B +500, in timestamp order. -/
def ledgerCancel : DB :=
  addAll [] [⟨"A", -300, ⟨1, none⟩⟩, ⟨"A", 300, ⟨2, none⟩⟩, ⟨"B", 500, ⟨3, none⟩⟩]

/-- A ledger without negative rows: A +300, B +200, A +1000, in timestamp order. -/
def ledgerPositive : DB :=
  [⟨1, "A", 300, 1⟩, ⟨2, "B", 200, 2⟩, ⟨3, "A", 1000, 3⟩]

/-- Two credits of the largest `int`, `2^63 - 1`, to the payer A. -/
def creditsHuge : List AddPointsRequest :=
  [⟨"A", 9223372036854775807, ⟨1, none⟩⟩, ⟨"A", 9223372036854775807, ⟨2, none⟩⟩]

/-- The ledger built by two credits of `-(2^63 - 1)` to the payer A. -/
def ledgerDebts : DB :=
  addAll [] [⟨"A", -9223372036854775807, ⟨1, none⟩⟩, ⟨"A", -9223372036854775807, ⟨2, none⟩⟩]

/-- The ledger built by the credits A `-(2^63 - 1)`, B `2^63 - 1` and C `2^63 - 1`, in timestamp
order. -/
def ledgerSwing : DB :=
  addAll [] [⟨"A", -9223372036854775807, ⟨1, none⟩⟩, ⟨"B", 9223372036854775807, ⟨2, none⟩⟩,
    ⟨"C", 9223372036854775807, ⟨3, none⟩⟩]

/-! ## Lemmas on machine integers -/

theorem wrap_inRange (x : Int) : InRange (wrap x) := by
  unfold wrap
  constructor <;> omega

theorem wrap_of_inRange {x : Int} (h : InRange x) : wrap x = x := by
  unfold InRange at h
  unfold wrap
  omega

theorem wrap_wrap_add (a b : Int) : wrap (wrap a + b) = wrap (a + b) := by
  unfold wrap
  omega

theorem wrap_wrap (a : Int) : wrap (wrap a) = wrap a := by
  unfold wrap
  omega

/-- The subtraction `t.Points -= pointsToSpend` of the allocation loop, run when
`0 < pointsToSpend < t.Points`, never leaves the range of `int`. -/
theorem wrap_sub_of_lt {a b : Int} (ha : InRange a) (h0 : 0 < b) (h1 : b < a) :
    wrap (a - b) = a - b := by
  unfold InRange at ha
  unfold wrap
  omega

/-! ## Lemmas on maps -/

theorem mapLookup_eq_none_iff (m : PointsMap) (p : String) :
    mapLookup m p = none ↔ p ∉ mapKeys m := by
  induction m with
  | nil => simp [mapLookup, mapKeys]
  | cons e rest ih =>
    obtain ⟨k, v⟩ := e
    by_cases h : k = p
    · simp [mapLookup, mapKeys, h]
    · have h2 : ¬ p = k := fun e => h e.symm
      simpa [mapLookup, mapKeys, h, h2] using ih

theorem mapLookup_eq_ite (m : PointsMap) (p : String) :
    mapLookup m p = if p ∈ mapKeys m then some (mapGet m p) else none := by
  by_cases h : p ∈ mapKeys m
  · rw [if_pos h]
    cases hl : mapLookup m p with
    | none => exact absurd h ((mapLookup_eq_none_iff m p).1 hl)
    | some v => simp [mapGet, hl]
  · rw [if_neg h]
    exact (mapLookup_eq_none_iff m p).2 h

theorem mapLookup_mapAddAssign (m : PointsMap) (k : String) (v : Int) (p : String) :
    mapLookup (mapAddAssign m k v) p
      = if k = p then some (wrap (mapGet m k + v)) else mapLookup m p := by
  induction m with
  | nil =>
    by_cases h : k = p <;> simp [mapAddAssign, mapLookup, mapGet, h]
  | cons e rest ih =>
    obtain ⟨k', v'⟩ := e
    by_cases h1 : k' = k
    · subst h1
      by_cases h2 : k' = p <;> simp [mapAddAssign, mapLookup, mapGet, h2]
    · by_cases h2 : k' = p
      · subst h2
        have h3 : ¬ k = k' := fun e => h1 e.symm
        simp [mapAddAssign, mapLookup, h1, h3]
      · by_cases h3 : k = p
        · subst h3
          simp only [mapAddAssign, mapLookup, h1, h2, if_false, ih, if_true, mapGet]
        · simp [mapAddAssign, mapLookup, h1, h2, h3, ih]

theorem mapGet_mapAddAssign (m : PointsMap) (k : String) (v : Int) (p : String) :
    mapGet (mapAddAssign m k v) p = if k = p then wrap (mapGet m p + v) else mapGet m p := by
  unfold mapGet
  rw [mapLookup_mapAddAssign]
  by_cases h : k = p
  · subst h; simp [mapGet]
  · simp [h]

theorem mapKeys_mapAddAssign (m : PointsMap) (k : String) (v : Int) :
    mapKeys (mapAddAssign m k v) = if k ∈ mapKeys m then mapKeys m else mapKeys m ++ [k] := by
  induction m with
  | nil => simp [mapAddAssign, mapKeys]
  | cons e rest ih =>
    obtain ⟨k', v'⟩ := e
    by_cases h1 : k' = k
    · subst h1
      simp [mapAddAssign, mapKeys]
    · have h2 : ¬ k = k' := fun e => h1 e.symm
      simp only [mapKeys] at ih
      by_cases h3 : k ∈ List.map (fun e => e.1) rest
      · simp [mapAddAssign, mapKeys, h1, h2, h3, ih]
      · simp [mapAddAssign, mapKeys, h1, h2, h3, ih]

theorem mapKeys_nodup_mapAddAssign (m : PointsMap) (k : String) (v : Int)
    (h : (mapKeys m).Nodup) : (mapKeys (mapAddAssign m k v)).Nodup := by
  rw [mapKeys_mapAddAssign]
  by_cases hk : k ∈ mapKeys m
  · simpa [hk] using h
  · simp only [hk, if_false]
    rw [List.nodup_append]
    refine ⟨h, List.nodup_singleton k, ?_⟩
    intro a ha hb
    simp at hb
    subst hb
    exact hk ha

theorem mem_mapKeys_mapAddAssign (m : PointsMap) (k : String) (v : Int) (p : String) :
    p ∈ mapKeys (mapAddAssign m k v) ↔ p ∈ mapKeys m ∨ p = k := by
  rw [mapKeys_mapAddAssign]
  by_cases hm : k ∈ mapKeys m
  · simp only [hm, if_true]
    constructor
    · exact Or.inl
    · rintro (h | h)
      · exact h
      · rw [h]; exact hm
  · simp [hm]

/-- An entry of the map after `m[k] += v` is an entry of `m` or the new entry of `k`. -/
theorem mem_mapAddAssign (m : PointsMap) (k : String) (v : Int) (e : String × Int)
    (he : e ∈ mapAddAssign m k v) : e ∈ m ∨ e = (k, wrap (mapGet m k + v)) := by
  induction m with
  | nil =>
    simp only [mapAddAssign, List.mem_singleton] at he
    right
    simpa [mapGet, mapLookup] using he
  | cons a rest ih =>
    obtain ⟨k', v'⟩ := a
    by_cases h1 : k' = k
    · subst h1
      simp only [mapAddAssign, if_true, List.mem_cons] at he
      rcases he with rfl | he
      · right; simp [mapGet, mapLookup]
      · left; exact List.mem_cons_of_mem _ he
    · simp only [mapAddAssign, h1, if_false, List.mem_cons] at he
      rcases he with rfl | he
      · left; exact List.mem_cons_self _ _
      · rcases ih he with h | h
        · left; exact List.mem_cons_of_mem _ h
        · right
          rw [h]
          simp [mapGet, mapLookup, h1]

/-- The value read for a key satisfies what every entry of the map and `0` satisfy. -/
theorem mapGet_of_forall (m : PointsMap) (k : String) (P : Int → Prop) (h0 : P 0)
    (hm : ∀ e ∈ m, P e.2) : P (mapGet m k) := by
  induction m with
  | nil => simpa [mapGet, mapLookup] using h0
  | cons a rest ih =>
    obtain ⟨k', v'⟩ := a
    by_cases h1 : k' = k
    · have := hm (k', v') (List.mem_cons_self _ _)
      simpa [mapGet, mapLookup, h1] using this
    · have := ih (fun e he => hm e (List.mem_cons_of_mem _ he))
      simpa [mapGet, mapLookup, h1] using this

/-- When the addition does not leave the range of `int`, `m[k] += v` adds `v` to the exact sum
of the values. -/
theorem mapSum_mapAddAssign (m : PointsMap) (k : String) (v : Int)
    (h : InRange (mapGet m k + v)) : mapSum (mapAddAssign m k v) = mapSum m + v := by
  induction m with
  | nil =>
    have h' : InRange v := by simpa [mapGet, mapLookup] using h
    simp [mapAddAssign, mapSum, wrap_of_inRange h']
  | cons e rest ih =>
    obtain ⟨k', v'⟩ := e
    by_cases h1 : k' = k
    · have h' : InRange (v' + v) := by simpa [mapGet, mapLookup, h1] using h
      simp only [mapAddAssign, h1, if_true, mapSum, List.map_cons, List.sum_cons,
        wrap_of_inRange h']
      ring
    · have h' : InRange (mapGet rest k + v) := by simpa [mapGet, mapLookup, h1] using h
      have := ih h'
      simp only [mapSum] at this
      simp only [mapAddAssign, h1, if_false, mapSum, List.map_cons, List.sum_cons, this]
      ring

/-! ## Lemmas on sums of points and on the balance -/

theorem sumPoints_cons (t : Transaction) (l : List Transaction) :
    sumPoints (t :: l) = t.Points + sumPoints l := by
  simp [sumPoints]

theorem sumPoints_perm {l₁ l₂ : List Transaction} (h : l₁.Perm l₂) :
    sumPoints l₁ = sumPoints l₂ := by
  unfold sumPoints
  exact (h.map _).sum_eq

theorem foldl_wrap_add (l : List Transaction) (a : Int) :
    l.foldl (fun acc t => wrap (acc + t.Points)) (wrap a) = wrap (a + sumPoints l) := by
  induction l generalizing a with
  | nil => simp [sumPoints]
  | cons t rest ih =>
    rw [List.foldl_cons, wrap_wrap_add, ih, sumPoints_cons]
    congr 1
    ring

/-- The total computed by the handler is the exact sum reduced to the range of `int`. -/
theorem totalPoints_eq_wrap (l : List Transaction) : totalPoints l = wrap (sumPoints l) := by
  have h := foldl_wrap_add l 0
  have h0 : wrap 0 = 0 := by decide
  rw [h0] at h
  simpa [totalPoints] using h

theorem totalPoints_perm {l₁ l₂ : List Transaction} (h : l₁.Perm l₂) :
    totalPoints l₁ = totalPoints l₂ := by
  rw [totalPoints_eq_wrap, totalPoints_eq_wrap, sumPoints_perm h]

theorem payerPoints_cons (p : String) (t : Transaction) (l : List Transaction) :
    payerPoints p (t :: l) = (if t.Payer = p then t.Points else 0) + payerPoints p l := by
  by_cases h : t.Payer = p <;> simp [payerPoints, List.filter_cons, h]

theorem payerPoints_perm (p : String) {l₁ l₂ : List Transaction} (h : l₁.Perm l₂) :
    payerPoints p l₁ = payerPoints p l₂ := by
  unfold payerPoints
  exact ((h.filter _).map _).sum_eq

theorem payerPoints_eq_zero (p : String) (l : List Transaction)
    (h : p ∉ l.map (fun t => t.Payer)) : payerPoints p l = 0 := by
  induction l with
  | nil => simp [payerPoints]
  | cons t rest ih =>
    simp only [List.map_cons, List.mem_cons, not_or] at h
    have h1 : ¬ t.Payer = p := fun e => h.1 e.symm
    rw [payerPoints_cons, ih h.2]
    simp [h1]

theorem payerPoints_append (p : String) (l₁ l₂ : List Transaction) :
    payerPoints p (l₁ ++ l₂) = payerPoints p l₁ + payerPoints p l₂ := by
  simp [payerPoints]

theorem mapLookup_foldl_balance (l : List Transaction) (m : PointsMap) (p : String) :
    mapLookup (l.foldl (fun balance t => mapAddAssign balance t.Payer t.Points) m) p
      = if p ∈ l.map (fun t => t.Payer) then some (wrap (mapGet m p + payerPoints p l))
        else mapLookup m p := by
  induction l generalizing m with
  | nil => simp
  | cons t rest ih =>
    rw [List.foldl_cons, ih, payerPoints_cons, mapGet_mapAddAssign, mapLookup_mapAddAssign]
    by_cases h1 : t.Payer = p
    · subst h1
      by_cases h2 : t.Payer ∈ rest.map (fun t => t.Payer)
      · simp only [h2, if_true, List.map_cons, List.mem_cons, true_or, wrap_wrap_add]
        congr 2
        ring
      · simp only [h2, if_false, if_true, List.map_cons, List.mem_cons, true_or,
          payerPoints_eq_zero _ _ h2, add_zero]
    · have h3 : ¬ p = t.Payer := fun e => h1 e.symm
      by_cases h2 : p ∈ rest.map (fun t => t.Payer)
      · simp [h1, h2]
      · simp only [List.mem_map, not_exists, not_and] at h2
        have h4 : ¬ ∃ a, a ∈ rest ∧ a.Payer = p := fun ⟨a, ha, hp⟩ => h2 a ha hp
        simp [h1, h3, h4]

/-- The balance of a payer is the exact sum of the payer's points reduced to the range of
`int`; a payer without row has no entry. -/
theorem mapLookup_GetBalance (db : DB) (p : String) :
    mapLookup (GetBalance db) p
      = if p ∈ db.map (fun t => t.Payer) then some (wrap (payerPoints p db)) else none := by
  unfold GetBalance
  rw [mapLookup_foldl_balance]
  simp [mapGet, mapLookup]

theorem mapKeys_nodup_foldl_balance (l : List Transaction) (m : PointsMap)
    (h : (mapKeys m).Nodup) :
    (mapKeys (l.foldl (fun balance t => mapAddAssign balance t.Payer t.Points) m)).Nodup := by
  induction l generalizing m with
  | nil => simpa using h
  | cons t rest ih =>
    rw [List.foldl_cons]
    exact ih _ (mapKeys_nodup_mapAddAssign m _ _ h)

theorem mapKeys_nodup_GetBalance (db : DB) : (mapKeys (GetBalance db)).Nodup :=
  mapKeys_nodup_foldl_balance db [] (by simp [mapKeys])

theorem negPoints_cons (t : Transaction) (l : List Transaction) :
    negPoints (t :: l) = max (-t.Points) 0 + negPoints l := by
  simp [negPoints]

theorem negPoints_nonneg (l : List Transaction) : 0 ≤ negPoints l := by
  induction l with
  | nil => simp [negPoints]
  | cons t rest ih =>
    rw [negPoints_cons]
    omega

theorem negPoints_eq_zero (l : List Transaction) (h : ∀ t ∈ l, 0 ≤ t.Points) :
    negPoints l = 0 := by
  induction l with
  | nil => simp [negPoints]
  | cons t rest ih =>
    have h1 := h t (List.mem_cons_self _ _)
    have h2 := ih (fun x hx => h x (List.mem_cons_of_mem _ hx))
    rw [negPoints_cons, h2]
    omega

theorem negPoints_take_le (l : List Transaction) (k : Nat) :
    negPoints (l.take k) ≤ negPoints l := by
  induction l generalizing k with
  | nil => simp
  | cons t rest ih =>
    cases k with
    | zero =>
      have := negPoints_nonneg (t :: rest)
      simpa [negPoints] using this
    | succ k =>
      have := ih k
      rw [List.take_succ_cons, negPoints_cons, negPoints_cons]
      omega

/-! ## Lemmas on the allocation loop -/

theorem spendLoop_of_nonpos (ts : List Transaction) (n : Int) (m : PointsMap) (h : n ≤ 0) :
    spendLoop ts n m = (ts, n, m) := by
  cases ts with
  | nil => rfl
  | cons t rest =>
    have h0 : ¬ n > 0 := by omega
    simp [spendLoop, h0]

theorem spendLoop_cons_le (t : Transaction) (rest : List Transaction) (n : Int) (m : PointsMap)
    (h0 : 0 < n) (h1 : t.Points ≤ n) :
    spendLoop (t :: rest) n m
      = ({ t with Points := 0 } ::
            (spendLoop rest (wrap (n - t.Points)) (mapAddAssign m t.Payer t.Points)).1,
          (spendLoop rest (wrap (n - t.Points)) (mapAddAssign m t.Payer t.Points)).2) := by
  have h0' : n > 0 := h0
  simp [spendLoop, h0', h1]

theorem spendLoop_cons_gt (t : Transaction) (rest : List Transaction) (n : Int) (m : PointsMap)
    (h0 : 0 < n) (h1 : n < t.Points) :
    spendLoop (t :: rest) n m
      = ({ t with Points := t.Points - n } :: rest, 0, mapAddAssign m t.Payer n) := by
  have h0' : n > 0 := h0
  have h1' : ¬ t.Points ≤ n := by omega
  simp [spendLoop, h0', h1', spendLoop_of_nonpos]

theorem visited_of_nonpos (ts : List Transaction) (n : Int) (h : n ≤ 0) : visited ts n = [] := by
  cases ts with
  | nil => rfl
  | cons t rest =>
    have h0 : ¬ n > 0 := by omega
    simp [visited, h0]

theorem visited_cons_le (t : Transaction) (rest : List Transaction) (n : Int)
    (h0 : 0 < n) (h1 : t.Points ≤ n) :
    visited (t :: rest) n = t :: visited rest (wrap (n - t.Points)) := by
  have h0' : n > 0 := h0
  simp [visited, h0', h1]

theorem visited_cons_gt (t : Transaction) (rest : List Transaction) (n : Int)
    (h0 : 0 < n) (h1 : n < t.Points) :
    visited (t :: rest) n = [t] := by
  have h0' : n > 0 := h0
  have h1' : ¬ t.Points ≤ n := by omega
  simp [visited, h0', h1', visited_of_nonpos]

theorem negPoints_visited_le (ts : List Transaction) (n : Int) :
    negPoints (visited ts n) ≤ negPoints ts := by
  induction ts generalizing n with
  | nil => simp [visited]
  | cons t rest ih =>
    by_cases h0 : 0 < n
    · by_cases h1 : t.Points ≤ n
      · rw [visited_cons_le t rest n h0 h1, negPoints_cons, negPoints_cons]
        have := ih (wrap (n - t.Points))
        omega
      · have e : negPoints ([] : List Transaction) = 0 := by simp [negPoints]
        rw [visited_cons_gt t rest n h0 (by omega), negPoints_cons, negPoints_cons, e]
        have := negPoints_nonneg rest
        omega
    · rw [visited_of_nonpos _ _ (by omega)]
      exact negPoints_nonneg _

theorem Depleted.refl (t : Transaction) : Depleted t t := by
  unfold Depleted
  refine ⟨rfl, rfl, rfl, ?_, ?_⟩ <;> intro h <;> omega

theorem forall₂_depleted_refl (l : List Transaction) : List.Forall₂ Depleted l l := by
  induction l with
  | nil => exact List.Forall₂.nil
  | cons t rest ih => exact List.Forall₂.cons (Depleted.refl t) ih

theorem spendLoop_depleted (ts : List Transaction) (n : Int) (m : PointsMap) :
    List.Forall₂ Depleted ts (spendLoop ts n m).1 := by
  induction ts generalizing n m with
  | nil => simp [spendLoop]
  | cons t rest ih =>
    by_cases h0 : 0 < n
    · by_cases h1 : t.Points ≤ n
      · rw [spendLoop_cons_le t rest n m h0 h1]
        refine List.Forall₂.cons ?_ (ih _ _)
        unfold Depleted
        refine ⟨rfl, rfl, rfl, ?_, ?_⟩ <;> intro h <;> simp <;> omega
      · rw [spendLoop_cons_gt t rest n m h0 (by omega)]
        refine List.Forall₂.cons ?_ (forall₂_depleted_refl rest)
        unfold Depleted
        refine ⟨rfl, rfl, rfl, ?_, ?_⟩ <;> intro h <;> simp <;> omega
    · rw [spendLoop_of_nonpos _ _ _ (by omega)]
      exact forall₂_depleted_refl _

theorem spendLoop_ne_nil (ts : List Transaction) (n : Int) (m : PointsMap) (h : ts ≠ []) :
    (spendLoop ts n m).1 ≠ [] := by
  intro he
  have := (spendLoop_depleted ts n m).length_eq
  rw [he] at this
  exact h (List.length_eq_zero.1 this)

/-- The reply of the loop for a payer, up to the range of `int`: what the map held before plus
the fall of the exact sum of the payer's points. -/
theorem spendLoop_mapGet (ts : List Transaction) (n : Int) (m : PointsMap) (p : String) :
    wrap (mapGet (spendLoop ts n m).2.2 p)
      = wrap (mapGet m p + (payerPoints p ts - payerPoints p (spendLoop ts n m).1)) := by
  induction ts generalizing n m with
  | nil => simp [spendLoop]
  | cons t rest ih =>
    by_cases h0 : 0 < n
    · by_cases h1 : t.Points ≤ n
      · rw [spendLoop_cons_le t rest n m h0 h1]
        simp only [ih, mapGet_mapAddAssign, payerPoints_cons]
        by_cases hp : t.Payer = p
        · simp only [hp, if_true]
          rw [wrap_wrap_add]
          congr 1
          ring
        · simp only [hp, if_false]
          congr 1
          ring
      · rw [spendLoop_cons_gt t rest n m h0 (by omega)]
        simp only [mapGet_mapAddAssign, payerPoints_cons]
        by_cases hp : t.Payer = p
        · simp only [hp, if_true, wrap_wrap]
          congr 1
          ring
        · simp only [hp, if_false]
          congr 1
          ring
    · rw [spendLoop_of_nonpos _ _ _ (by omega)]
      simp

theorem spendLoop_mem_mapKeys (ts : List Transaction) (n : Int) (m : PointsMap) (p : String) :
    p ∈ mapKeys (spendLoop ts n m).2.2
      ↔ p ∈ mapKeys m ∨ p ∈ (visited ts n).map (fun t => t.Payer) := by
  induction ts generalizing n m with
  | nil => simp [spendLoop, visited]
  | cons t rest ih =>
    by_cases h0 : 0 < n
    · by_cases h1 : t.Points ≤ n
      · rw [spendLoop_cons_le t rest n m h0 h1, visited_cons_le t rest n h0 h1]
        simp only [ih, mem_mapKeys_mapAddAssign, List.map_cons, List.mem_cons]
        tauto
      · rw [spendLoop_cons_gt t rest n m h0 (by omega), visited_cons_gt t rest n h0 (by omega)]
        simp only [mem_mapKeys_mapAddAssign, List.map_cons, List.mem_cons, List.map_nil,
          List.not_mem_nil, or_false]
    · rw [spendLoop_of_nonpos _ _ _ (by omega), visited_of_nonpos _ _ (by omega)]
      simp

theorem spendLoop_mapKeys_nodup (ts : List Transaction) (n : Int) (m : PointsMap)
    (h : (mapKeys m).Nodup) : (mapKeys (spendLoop ts n m).2.2).Nodup := by
  induction ts generalizing n m with
  | nil => simpa [spendLoop] using h
  | cons t rest ih =>
    by_cases h0 : 0 < n
    · by_cases h1 : t.Points ≤ n
      · rw [spendLoop_cons_le t rest n m h0 h1]
        exact ih _ _ (mapKeys_nodup_mapAddAssign m _ _ h)
      · rw [spendLoop_cons_gt t rest n m h0 (by omega)]
        exact mapKeys_nodup_mapAddAssign m _ _ h
    · rw [spendLoop_of_nonpos _ _ _ (by omega)]
      exact h

theorem spendLoop_shape (ts : List Transaction) (n : Int) (m : PointsMap) :
    ∃ k : Nat,
      (∀ i, i < k → pointsAt (spendLoop ts n m).1 i = some 0) ∧
      (∀ j, k < j → (spendLoop ts n m).1[j]? = ts[j]?) := by
  induction ts generalizing n m with
  | nil => exact ⟨0, by simp, by simp [spendLoop]⟩
  | cons t rest ih =>
    by_cases h0 : 0 < n
    · by_cases h1 : t.Points ≤ n
      · rw [spendLoop_cons_le t rest n m h0 h1]
        obtain ⟨k, hk1, hk2⟩ := ih (wrap (n - t.Points)) (mapAddAssign m t.Payer t.Points)
        refine ⟨k + 1, ?_, ?_⟩
        · intro i hi
          cases i with
          | zero => simp [pointsAt]
          | succ i => simpa [pointsAt] using hk1 i (by omega)
        · intro j hj
          cases j with
          | zero => omega
          | succ j => simpa using hk2 j (by omega)
      · rw [spendLoop_cons_gt t rest n m h0 (by omega)]
        refine ⟨0, by simp, ?_⟩
        intro j hj
        cases j with
        | zero => omega
        | succ j => simp
    · rw [spendLoop_of_nonpos _ _ _ (by omega)]
      exact ⟨0, by simp, by simp⟩

/-! ## The allocation loop when no operation leaves the range of `int` -/

/-- When the amount plus the absolute values of the negative points the loop meets stays below
`2^63`, the amount that remains is exact: it is never negative, it accounts for the fall of the
sum of the points, and if some of it is left the loop has emptied every transaction. -/
theorem spendLoop_exact (ts : List Transaction) (n : Int) (m : PointsMap) (h0 : 0 ≤ n)
    (hb : n + negPoints (visited ts n) < 9223372036854775808) :
    0 ≤ (spendLoop ts n m).2.1 ∧
    sumPoints (spendLoop ts n m).1 = sumPoints ts - (n - (spendLoop ts n m).2.1) ∧
    (0 < (spendLoop ts n m).2.1 →
      (spendLoop ts n m).2.1 = n - sumPoints ts ∧ visited ts n = ts) := by
  induction ts generalizing n m with
  | nil => simp [spendLoop, sumPoints, visited, h0]
  | cons t rest ih =>
    by_cases hpos : 0 < n
    · by_cases h1 : t.Points ≤ n
      · rw [visited_cons_le t rest n hpos h1, negPoints_cons] at hb
        have hN := negPoints_nonneg (visited rest (wrap (n - t.Points)))
        have hw : wrap (n - t.Points) = n - t.Points :=
          wrap_of_inRange ⟨by omega, by omega⟩
        rw [spendLoop_cons_le t rest n m hpos h1, visited_cons_le t rest n hpos h1]
        rw [hw] at hb hN ⊢
        obtain ⟨i1, i2, i3⟩ := ih (n - t.Points) (mapAddAssign m t.Payer t.Points)
          (by omega) (by omega)
        refine ⟨i1, ?_, ?_⟩
        · simp only [sumPoints_cons, i2]
          ring
        · intro hr
          obtain ⟨j1, j2⟩ := i3 hr
          refine ⟨?_, by rw [j2]⟩
          simp only [sumPoints_cons] at j1 ⊢
          rw [j1]
          ring
      · rw [spendLoop_cons_gt t rest n m hpos (by omega)]
        refine ⟨le_refl _, ?_, ?_⟩
        · simp only [sumPoints_cons]
          ring
        · intro hr
          exact absurd hr (lt_irrefl _)
    · have hn : n = 0 := by omega
      subst hn
      rw [spendLoop_of_nonpos _ _ _ (le_refl _)]
      refine ⟨le_refl _, by simp, ?_⟩
      intro hr
      exact absurd hr (lt_irrefl _)

/-- Under the same bound, with `K` below `2^63`, the amounts noted in `spentPoints` are exact:
they add up to what was spent and each lies between `-K` and `K`. -/
theorem spendLoop_map_exact (ts : List Transaction) (n : Int) (m : PointsMap) (K : Int)
    (h0 : 0 ≤ n) (hK : K < 9223372036854775808)
    (hb : n + negPoints (visited ts n) ≤ K)
    (hm : ∀ e ∈ m, negPoints (visited ts n) - K ≤ e.2 ∧
      e.2 + n + negPoints (visited ts n) ≤ K) :
    mapSum (spendLoop ts n m).2.2 = mapSum m + (n - (spendLoop ts n m).2.1) ∧
    ∀ e ∈ (spendLoop ts n m).2.2, -K ≤ e.2 ∧ e.2 ≤ K := by
  induction ts generalizing n m with
  | nil =>
    simp only [visited, negPoints, List.map_nil, List.sum_nil] at hb hm
    refine ⟨by simp [spendLoop], ?_⟩
    intro e he
    have := hm e (by simpa [spendLoop] using he)
    omega
  | cons t rest ih =>
    by_cases hpos : 0 < n
    · by_cases h1 : t.Points ≤ n
      · rw [visited_cons_le t rest n hpos h1, negPoints_cons] at hb hm
        have hN := negPoints_nonneg (visited rest (wrap (n - t.Points)))
        have hw : wrap (n - t.Points) = n - t.Points :=
          wrap_of_inRange ⟨by omega, by omega⟩
        rw [spendLoop_cons_le t rest n m hpos h1]
        rw [hw] at hb hm hN ⊢
        have hg := mapGet_of_forall m t.Payer
          (fun v => max (-t.Points) 0 + negPoints (visited rest (n - t.Points)) - K ≤ v ∧
            v + n + (max (-t.Points) 0 + negPoints (visited rest (n - t.Points))) ≤ K)
          ⟨by omega, by omega⟩ hm
        simp only at hg
        have hr : InRange (mapGet m t.Payer + t.Points) := ⟨by omega, by omega⟩
        obtain ⟨i1, i2⟩ := ih (n - t.Points) (mapAddAssign m t.Payer t.Points) (by omega)
          (by omega) (by
            intro e he
            rcases mem_mapAddAssign m _ _ e he with h | h
            · have := hm e h
              constructor <;> omega
            · rw [h, wrap_of_inRange hr]
              constructor <;> simp only <;> omega)
        refine ⟨?_, i2⟩
        rw [i1, mapSum_mapAddAssign m _ _ hr]
        ring
      · rw [visited_cons_gt t rest n hpos (by omega), negPoints_cons] at hb hm
        simp only [negPoints, List.map_nil, List.sum_nil, add_zero] at hb hm
        rw [spendLoop_cons_gt t rest n m hpos (by omega)]
        have hg := mapGet_of_forall m t.Payer
          (fun v => max (-t.Points) 0 - K ≤ v ∧ v + n + max (-t.Points) 0 ≤ K)
          ⟨by omega, by omega⟩ hm
        simp only at hg
        have hr : InRange (mapGet m t.Payer + n) := ⟨by omega, by omega⟩
        refine ⟨?_, ?_⟩
        · simp only [mapSum_mapAddAssign m _ _ hr]
          ring
        · intro e he
          rcases mem_mapAddAssign m _ _ e he with h | h
          · have := hm e h
            constructor <;> omega
          · rw [h, wrap_of_inRange hr]
            constructor <;> simp only <;> omega
    · have hn : n = 0 := by omega
      subst hn
      rw [visited_of_nonpos _ _ (le_refl _)] at hm
      simp only [negPoints, List.map_nil, List.sum_nil] at hm
      rw [spendLoop_of_nonpos _ _ _ (le_refl _)]
      refine ⟨by simp, ?_⟩
      intro e he
      have := hm e he
      omega

/-- When the loop meets no negative points and the amount is below `2^63`, no amount noted in
`spentPoints` is negative. -/
theorem spendLoop_nonneg (ts : List Transaction) (n : Int) (m : PointsMap) (h0 : 0 ≤ n)
    (hn : n < 9223372036854775808) (hv : ∀ t ∈ visited ts n, 0 ≤ t.Points)
    (hm : ∀ e ∈ m, 0 ≤ e.2 ∧ e.2 + n < 9223372036854775808) :
    ∀ e ∈ (spendLoop ts n m).2.2, 0 ≤ e.2 := by
  induction ts generalizing n m with
  | nil => exact fun e he => (hm e (by simpa [spendLoop] using he)).1
  | cons t rest ih =>
    by_cases hpos : 0 < n
    · have hg := mapGet_of_forall m t.Payer
        (fun v => 0 ≤ v ∧ v + n < 9223372036854775808) ⟨le_refl _, by omega⟩ hm
      simp only at hg
      by_cases h1 : t.Points ≤ n
      · rw [visited_cons_le t rest n hpos h1] at hv
        have ht : 0 ≤ t.Points := hv t (List.mem_cons_self _ _)
        have hw : wrap (n - t.Points) = n - t.Points :=
          wrap_of_inRange ⟨by omega, by omega⟩
        rw [spendLoop_cons_le t rest n m hpos h1]
        rw [hw] at hv ⊢
        have hr : InRange (mapGet m t.Payer + t.Points) := ⟨by omega, by omega⟩
        refine ih (n - t.Points) (mapAddAssign m t.Payer t.Points) (by omega) (by omega)
          (fun x hx => hv x (List.mem_cons_of_mem _ hx)) ?_
        intro e he
        rcases mem_mapAddAssign m _ _ e he with h | h
        · have := hm e h
          constructor <;> omega
        · rw [h, wrap_of_inRange hr]
          constructor <;> simp only <;> omega
      · rw [spendLoop_cons_gt t rest n m hpos (by omega)]
        have hr : InRange (mapGet m t.Payer + n) := ⟨by omega, by omega⟩
        intro e he
        rcases mem_mapAddAssign m _ _ e he with h | h
        · exact (hm e h).1
        · rw [h, wrap_of_inRange hr]
          simp only
          omega
    · rw [spendLoop_of_nonpos _ _ _ (by omega)]
      exact fun e he => (hm e he).1

/-! ## Lemmas on reading and writing the table -/

theorem find?_ID_of_mem (l : List Transaction) (h : (l.map (fun t => t.ID)).Nodup)
    (t : Transaction) (ht : t ∈ l) : l.find? (fun x => x.ID == t.ID) = some t := by
  induction l with
  | nil => simp at ht
  | cons a rest ih =>
    rw [List.map_cons, List.nodup_cons] at h
    rcases List.mem_cons.1 ht with rfl | hr
    · simp
    · have hne : ¬ a.ID = t.ID := by
        intro e
        apply h.1
        rw [e]
        exact List.mem_map_of_mem _ hr
      have hb : (a.ID == t.ID) = false := by simpa using hne
      rw [List.find?_cons, hb]
      exact ih h.2 hr

theorem forall₂_depleted_map_ID {l₁ l₂ : List Transaction} (h : List.Forall₂ Depleted l₁ l₂) :
    l₂.map (fun t => t.ID) = l₁.map (fun t => t.ID) := by
  induction h with
  | nil => rfl
  | cons hd _ ih => simp [hd.1, ih]

theorem forall₂_depleted_map_Payer {l₁ l₂ : List Transaction}
    (h : List.Forall₂ Depleted l₁ l₂) :
    l₂.map (fun t => t.Payer) = l₁.map (fun t => t.Payer) := by
  induction h with
  | nil => rfl
  | cons hd _ ih => simp [hd.2.1, ih]

theorem overwrite_of_depleted (ts' : List Transaction) (hn : (ts'.map (fun t => t.ID)).Nodup)
    {l₁ l₂ : List Transaction} (h : List.Forall₂ Depleted l₁ l₂) (hsub : ∀ b ∈ l₂, b ∈ ts') :
    overwrite l₁ ts' = l₂ := by
  induction h with
  | nil => rfl
  | cons hd _ ih =>
    rename_i a b l₁ l₂ _
    have hb : b ∈ ts' := hsub b (List.mem_cons_self _ _)
    have hfind := find?_ID_of_mem ts' hn b hb
    rw [hd.1] at hfind
    unfold overwrite at ih ⊢
    rw [List.map_cons, ih (fun x hx => hsub x (List.mem_cons_of_mem _ hx)), hfind]

theorem overwrite_eq_map (db ts' : List Transaction) :
    overwrite db ts' = db.map (fun row =>
      match ts'.find? (fun t => t.ID == row.ID) with
      | some t => t
      | none => row) := rfl

theorem orderByTimestamp_perm (db : DB) : (orderByTimestamp db).Perm db :=
  List.perm_insertionSort _ db

theorem orderByTimestamp_ne_nil (db : DB) (h : db ≠ []) : orderByTimestamp db ≠ [] := by
  intro he
  have := (orderByTimestamp_perm db).length_eq
  rw [he] at this
  exact h (List.length_eq_zero.1 this.symm)

/-- Writing back the records read by `orderByTimestamp`, changed only as the allocation loop may
change them, changes each row of the table in that way, and a new ordered read returns exactly
the records written. -/
theorem overwrite_orderByTimestamp (db : DB) (hid : (db.map (fun t => t.ID)).Nodup)
    (ts' : List Transaction) (h : List.Forall₂ Depleted (orderByTimestamp db) ts') :
    List.Forall₂ Depleted db (overwrite db ts') ∧ orderByTimestamp (overwrite db ts') = ts' := by
  have hperm := orderByTimestamp_perm db
  have hn : (ts'.map (fun t => t.ID)).Nodup := by
    rw [forall₂_depleted_map_ID h]
    exact ((hperm.map _).nodup_iff).2 hid
  have hsave : overwrite (orderByTimestamp db) ts' = ts' :=
    overwrite_of_depleted ts' hn h (fun _ hb => hb)
  have hrow : ∀ r ∈ db, Depleted r
      (match ts'.find? (fun t => t.ID == r.ID) with
        | some t => t
        | none => r) := by
    have h2 := h
    rw [← hsave, overwrite_eq_map, List.forall₂_map_right_iff] at h2
    intro r hr
    exact (List.forall₂_same.1 h2) r (hperm.mem_iff.2 hr)
  refine ⟨?_, ?_⟩
  · rw [overwrite_eq_map, List.forall₂_map_right_iff]
    exact List.forall₂_same.2 hrow
  · have hcomm : orderByTimestamp (overwrite db ts') = overwrite (orderByTimestamp db) ts' := by
      unfold orderByTimestamp
      rw [overwrite_eq_map, overwrite_eq_map]
      symm
      apply List.map_insertionSort
      intro a ha b hb
      rw [(hrow a ha).2.2.1, (hrow b hb).2.2.1]
    rw [hcomm, hsave]

theorem lt_nextID (db : DB) (t : Transaction) (ht : t ∈ db) : t.ID < nextID db := by
  unfold nextID
  induction db with
  | nil => simp at ht
  | cons a rest ih =>
    rcases List.mem_cons.1 ht with rfl | hr
    · simp only [List.map_cons, List.foldr_cons]
      omega
    · have := ih hr
      simp only [List.map_cons, List.foldr_cons]
      omega

theorem nextID_not_mem (db : DB) : nextID db ∉ db.map (fun t => t.ID) := by
  intro h
  obtain ⟨t, ht, he⟩ := List.mem_map.1 h
  have := lt_nextID db t ht
  omega

/-- Primary keys stay distinct when `AddPoints` handles a request. -/
theorem AddPoints_nodup (db : DB) (req : AddPointsRequest)
    (hid : (db.map (fun t => t.ID)).Nodup) :
    (((AddPoints db req).2).map (fun t => t.ID)).Nodup := by
  unfold AddPoints
  by_cases hb : bindAddPoints req = true
  · simp only [hb, if_true, Create, List.map_append, List.map_cons, List.map_nil]
    rw [List.nodup_append]
    refine ⟨hid, List.nodup_singleton _, ?_⟩
    intro a ha hb'
    simp only [List.mem_singleton] at hb'
    subst hb'
    exact nextID_not_mem db ha
  · simpa [hb] using hid

/-- Primary keys are distinct in every ledger built by `AddPoints` from a ledger with distinct
keys, in particular from the empty ledger. -/
theorem addAll_nodup (db : DB) (reqs : List AddPointsRequest)
    (hid : (db.map (fun t => t.ID)).Nodup) :
    ((addAll db reqs).map (fun t => t.ID)).Nodup := by
  induction reqs generalizing db with
  | nil => simpa [addAll] using hid
  | cons r rest ih =>
    simp only [addAll, List.foldl_cons]
    exact ih _ (AddPoints_nodup db r hid)

theorem addAll_cons (db : DB) (r : AddPointsRequest) (rest : List AddPointsRequest) :
    addAll db (r :: rest) = addAll (AddPoints db r).2 rest := rfl

theorem payerPoints_addAll (p : String) (db : DB) (reqs : List AddPointsRequest) :
    payerPoints p (addAll db reqs) = payerPoints p db + creditedPoints p reqs := by
  induction reqs generalizing db with
  | nil => simp [addAll, creditedPoints]
  | cons r rest ih =>
    rw [addAll_cons, ih]
    unfold AddPoints creditedPoints
    by_cases hb : bindAddPoints r = true
    · simp only [hb, if_true, Create, payerPoints_append, List.filter_cons]
      by_cases hp : r.Payer = p
      · simp [payerPoints, hp]; ring
      · simp [payerPoints, hp]
    · simp [hb, List.filter_cons]

theorem mem_payers_addAll (p : String) (db : DB) (reqs : List AddPointsRequest) :
    p ∈ (addAll db reqs).map (fun t => t.Payer)
      ↔ p ∈ db.map (fun t => t.Payer)
        ∨ p ∈ (reqs.filter (fun r => bindAddPoints r)).map (fun r => r.Payer) := by
  induction reqs generalizing db with
  | nil => simp [addAll]
  | cons r rest ih =>
    rw [addAll_cons, ih]
    unfold AddPoints
    by_cases hb : bindAddPoints r = true
    · simp only [hb, if_true, Create, List.map_append, List.mem_append, List.filter_cons,
        List.map_cons, List.map_nil, List.mem_singleton, List.mem_cons]
      tauto
    · simp [hb, List.filter_cons]

/-! ## The replies of `SpendPoints` -/

theorem sumPoints_orderByTimestamp (db : DB) : sumPoints (orderByTimestamp db) = sumPoints db :=
  sumPoints_perm (orderByTimestamp_perm db)

theorem totalPoints_orderByTimestamp (db : DB) :
    totalPoints (orderByTimestamp db) = wrap (sumPoints db) := by
  rw [totalPoints_eq_wrap, sumPoints_orderByTimestamp]

theorem SpendPoints_of_zero (db : DB) (req : SpendPointsRequest) (h : req.Points = 0) :
    SpendPoints db req = (Reply.bindFailed, db) := by
  simp [SpendPoints, bindSpendPoints, h]

theorem SpendPoints_of_lt (db : DB) (req : SpendPointsRequest) (h : req.Points ≠ 0)
    (ht : wrap (sumPoints db) < req.Points) :
    SpendPoints db req = (Reply.notEnoughPoints, db) := by
  simp [SpendPoints, bindSpendPoints, h, totalPoints_orderByTimestamp, ht]

theorem SpendPoints_of_nil (req : SpendPointsRequest) (h : req.Points ≠ 0)
    (ht : ¬ wrap (sumPoints []) < req.Points) :
    SpendPoints [] req = (Reply.updateFailed, []) := by
  have h1 : orderByTimestamp [] = [] := rfl
  have ht' : ¬ totalPoints [] < req.Points := by
    rw [totalPoints_eq_wrap]
    exact ht
  simp [SpendPoints, bindSpendPoints, h, ht', h1, spendLoop, Save]

theorem SpendPoints_of_le (db : DB) (req : SpendPointsRequest) (h : req.Points ≠ 0)
    (ht : ¬ wrap (sumPoints db) < req.Points) (hne : db ≠ []) :
    SpendPoints db req
      = (Reply.ok (buildResponse (spendLoop (orderByTimestamp db) req.Points []).2.2),
          overwrite db (spendLoop (orderByTimestamp db) req.Points []).1) := by
  have hl := spendLoop_ne_nil (orderByTimestamp db) req.Points []
    (orderByTimestamp_ne_nil db hne)
  have he : (spendLoop (orderByTimestamp db) req.Points []).1.isEmpty = false := by
    simpa [List.isEmpty_iff] using hl
  simp [SpendPoints, bindSpendPoints, h, totalPoints_orderByTimestamp, ht, Save, he]

theorem SpendPoints_ok_inv (db : DB) (req : SpendPointsRequest) (resp : List SpendPointsResponse)
    (hok : (SpendPoints db req).1 = Reply.ok resp) :
    req.Points ≠ 0 ∧ req.Points ≤ wrap (sumPoints db) ∧ db ≠ [] ∧
      resp = buildResponse (spendLoop (orderByTimestamp db) req.Points []).2.2 ∧
      (SpendPoints db req).2 = overwrite db (spendLoop (orderByTimestamp db) req.Points []).1 := by
  by_cases h : req.Points = 0
  · rw [SpendPoints_of_zero db req h] at hok
    simp at hok
  · by_cases ht : wrap (sumPoints db) < req.Points
    · rw [SpendPoints_of_lt db req h ht] at hok
      simp at hok
    · by_cases hne : db = []
      · subst hne
        rw [SpendPoints_of_nil req h ht] at hok
        simp at hok
      · rw [SpendPoints_of_le db req h ht hne] at hok ⊢
        simp only [Reply.ok.injEq] at hok
        exact ⟨h, by omega, hne, hok.symm, rfl⟩

/-- The table after `SpendPoints`: as before, or overwritten by what the allocation loop leaves
of the ordered read. -/
theorem SpendPoints_table (db : DB) (req : SpendPointsRequest) :
    (SpendPoints db req).2 = db ∨
      (SpendPoints db req).2 = overwrite db (spendLoop (orderByTimestamp db) req.Points []).1 := by
  by_cases h : req.Points = 0
  · rw [SpendPoints_of_zero db req h]; exact Or.inl rfl
  · by_cases ht : wrap (sumPoints db) < req.Points
    · rw [SpendPoints_of_lt db req h ht]; exact Or.inl rfl
    · by_cases hne : db = []
      · subst hne
        rw [SpendPoints_of_nil req h ht]; exact Or.inl rfl
      · rw [SpendPoints_of_le db req h ht hne]; exact Or.inr rfl

/-- What a successful spend leaves in the table, in terms of the allocation loop run on the
ordered read. -/
theorem SpendPoints_ok_table (db : DB) (req : SpendPointsRequest)
    (resp : List SpendPointsResponse) (hid : (db.map (fun t => t.ID)).Nodup)
    (hok : (SpendPoints db req).1 = Reply.ok resp) :
    List.Forall₂ Depleted db (SpendPoints db req).2 ∧
      orderByTimestamp (SpendPoints db req).2
        = (spendLoop (orderByTimestamp db) req.Points []).1 ∧
      ((spendLoop (orderByTimestamp db) req.Points []).1).Perm (SpendPoints db req).2 := by
  obtain ⟨_, _, _, _, hdb⟩ := SpendPoints_ok_inv db req resp hok
  rw [hdb]
  have h := overwrite_orderByTimestamp db hid _
    (spendLoop_depleted (orderByTimestamp db) req.Points [])
  refine ⟨h.1, h.2, ?_⟩
  have hp := orderByTimestamp_perm
    (overwrite db (spendLoop (orderByTimestamp db) req.Points []).1)
  rw [h.2] at hp
  exact hp

/-- Primary keys are unchanged when `SpendPoints` handles a request. -/
theorem SpendPoints_map_ID (db : DB) (req : SpendPointsRequest)
    (hid : (db.map (fun t => t.ID)).Nodup) :
    ((SpendPoints db req).2).map (fun t => t.ID) = db.map (fun t => t.ID) := by
  rcases SpendPoints_table db req with h | h
  · rw [h]
  · rw [h]
    exact forall₂_depleted_map_ID
      (overwrite_orderByTimestamp db hid _ (spendLoop_depleted _ _ _)).1

theorem responseDelta_buildResponse (m : PointsMap) (p : String) :
    responseDelta (buildResponse m) p = (mapLookup m p).map (fun v => wrap (-v)) := by
  induction m with
  | nil => rfl
  | cons e rest ih =>
    obtain ⟨k, v⟩ := e
    by_cases h : k = p
    · simp [buildResponse, responseDelta, mapLookup, h]
    · simp only [buildResponse] at ih
      simp [buildResponse, responseDelta, mapLookup, h, ih]

theorem responseDelta_getD_buildResponse (m : PointsMap) (p : String) :
    (responseDelta (buildResponse m) p).getD 0 = wrap (-mapGet m p) := by
  rw [responseDelta_buildResponse]
  unfold mapGet
  cases mapLookup m p with
  | none => decide
  | some v => simp

theorem map_Payer_buildResponse (m : PointsMap) :
    (buildResponse m).map (fun e => e.Payer) = mapKeys m := by
  simp [buildResponse, mapKeys]

theorem sum_Points_buildResponse (m : PointsMap) (K : Int) (hK : K < 9223372036854775808)
    (h : ∀ e ∈ m, -K ≤ e.2 ∧ e.2 ≤ K) :
    ((buildResponse m).map (fun e => e.Points)).sum = -mapSum m := by
  induction m with
  | nil => simp [buildResponse, mapSum]
  | cons e rest ih =>
    have h0 := h e (List.mem_cons_self _ _)
    have hw : wrap (-e.2) = -e.2 := wrap_of_inRange ⟨by omega, by omega⟩
    have hr := ih (fun x hx => h x (List.mem_cons_of_mem _ hx))
    simp only [buildResponse, mapSum, List.map_map] at hr
    simp only [buildResponse, mapSum, List.map_map, List.map_cons, List.sum_cons, hr,
      Function.comp, hw]
    ring

theorem sum_abs_buildResponse (m : PointsMap)
    (h : ∀ e ∈ m, 0 ≤ e.2 ∧ e.2 < 9223372036854775808) :
    ((buildResponse m).map (fun e => |e.Points|)).sum = mapSum m := by
  induction m with
  | nil => simp [buildResponse, mapSum]
  | cons e rest ih =>
    have h0 := h e (List.mem_cons_self _ _)
    have hw : wrap (-e.2) = -e.2 := wrap_of_inRange ⟨by omega, by omega⟩
    have hr := ih (fun x hx => h x (List.mem_cons_of_mem _ hx))
    simp only [buildResponse, mapSum, List.map_map] at hr
    simp only [buildResponse, mapSum, List.map_map, List.map_cons, List.sum_cons, hr,
      Function.comp, hw, abs_neg, abs_of_nonneg h0.1]

theorem sumPoints_nonneg (l : List Transaction) (h : ∀ t ∈ l, 0 ≤ t.Points) :
    0 ≤ sumPoints l := by
  induction l with
  | nil => simp [sumPoints]
  | cons t rest ih =>
    have h1 := h t (List.mem_cons_self _ _)
    have h2 := ih (fun x hx => h x (List.mem_cons_of_mem _ hx))
    rw [sumPoints_cons]
    omega

theorem negPoints_perm {l₁ l₂ : List Transaction} (h : l₁.Perm l₂) :
    negPoints l₁ = negPoints l₂ := by
  unfold negPoints
  exact (h.map _).sum_eq

/-! ## The properties of the ledger -/

/-- C8. `AddPoints` answers with the binding error and leaves the ledger as it is whenever the
payer is empty, the points are zero or the timestamp is missing (the zero value of
`time.Time`); for every other request, whatever the ledger holds, it answers 200 and the new
ledger is the old one followed by exactly one transaction, under a key not in use, that carries
the payer, points and timestamp of the request. -/
theorem AddPoints_spec (db : DB) (req : AddPointsRequest) :
    ((req.Payer = "" ∨ req.Points = 0 ∨ req.Timestamp = zeroTime) →
        AddPoints db req = (Reply.bindFailed, db)) ∧
    (¬ (req.Payer = "" ∨ req.Points = 0 ∨ req.Timestamp = zeroTime) →
        ∃ id, id ∉ db.map (fun t => t.ID) ∧
          AddPoints db req
            = (Reply.ok (),
                db ++ [{ ID := id, Payer := req.Payer, Points := req.Points,
                         Timestamp := req.Timestamp.instant }])) := by
  constructor
  · intro h
    have hb : bindAddPoints req = false := by
      unfold bindAddPoints
      rcases h with h | h | h <;> simp [h]
    simp [AddPoints, hb]
  · intro h
    simp only [not_or] at h
    have hb : bindAddPoints req = true := by
      simp [bindAddPoints, h.1, h.2.1, h.2.2]
    exact ⟨nextID db, nextID_not_mem db, by simp [AddPoints, hb, Create]⟩

/-- C1. On the empty ledger, after the credits DANNON +300, UNILEVER +200, DANNON -200,
MILLER COORS +10000 and DANNON +1000 with strictly increasing timestamps, a spend of 5000
answers 200 with the entries (DANNON, -100), (UNILEVER, -200) and (MILLER COORS, -4700), in some
order, and the balance is then DANNON 1000, UNILEVER 0, MILLER COORS 5300. -/
theorem scenario_spend_5000 (t₁ t₂ t₃ t₄ t₅ : Time)
    (h₁ : t₁ ≠ zeroTime) (h₂ : t₂ ≠ zeroTime) (h₃ : t₃ ≠ zeroTime) (h₄ : t₄ ≠ zeroTime)
    (h₅ : t₅ ≠ zeroTime)
    (h₁₂ : t₁.instant < t₂.instant) (h₂₃ : t₂.instant < t₃.instant)
    (h₃₄ : t₃.instant < t₄.instant) (h₄₅ : t₄.instant < t₅.instant) :
    ∃ resp,
      (SpendPoints
        (addAll [] [⟨"DANNON", 300, t₁⟩, ⟨"UNILEVER", 200, t₂⟩, ⟨"DANNON", -200, t₃⟩,
          ⟨"MILLER COORS", 10000, t₄⟩, ⟨"DANNON", 1000, t₅⟩]) ⟨5000⟩).1 = Reply.ok resp ∧
      resp.Perm [⟨"DANNON", -100⟩, ⟨"UNILEVER", -200⟩, ⟨"MILLER COORS", -4700⟩] ∧
      (GetBalance (SpendPoints
        (addAll [] [⟨"DANNON", 300, t₁⟩, ⟨"UNILEVER", 200, t₂⟩, ⟨"DANNON", -200, t₃⟩,
          ⟨"MILLER COORS", 10000, t₄⟩, ⟨"DANNON", 1000, t₅⟩]) ⟨5000⟩).2).Perm
        [("DANNON", 1000), ("UNILEVER", 0), ("MILLER COORS", 5300)] := by
  have hdb : addAll [] [⟨"DANNON", 300, t₁⟩, ⟨"UNILEVER", 200, t₂⟩, ⟨"DANNON", -200, t₃⟩,
        ⟨"MILLER COORS", 10000, t₄⟩, ⟨"DANNON", 1000, t₅⟩]
      = [⟨1, "DANNON", 300, t₁.instant⟩, ⟨2, "UNILEVER", 200, t₂.instant⟩,
          ⟨3, "DANNON", -200, t₃.instant⟩, ⟨4, "MILLER COORS", 10000, t₄.instant⟩,
          ⟨5, "DANNON", 1000, t₅.instant⟩] := by
    simp [addAll, AddPoints, bindAddPoints, Create, nextID, h₁, h₂, h₃, h₄, h₅]
  have hsort : orderByTimestamp [⟨1, "DANNON", 300, t₁.instant⟩,
        ⟨2, "UNILEVER", 200, t₂.instant⟩, ⟨3, "DANNON", -200, t₃.instant⟩,
        ⟨4, "MILLER COORS", 10000, t₄.instant⟩, ⟨5, "DANNON", 1000, t₅.instant⟩]
      = [⟨1, "DANNON", 300, t₁.instant⟩, ⟨2, "UNILEVER", 200, t₂.instant⟩,
          ⟨3, "DANNON", -200, t₃.instant⟩, ⟨4, "MILLER COORS", 10000, t₄.instant⟩,
          ⟨5, "DANNON", 1000, t₅.instant⟩] := by
    apply List.Sorted.insertionSort_eq
    simp only [List.Sorted, List.pairwise_cons, List.mem_cons, List.mem_singleton,
      List.not_mem_nil, forall_eq_or_imp, forall_eq, IsEmpty.forall_iff, implies_true,
      List.Pairwise.nil, and_true]
    omega
  rw [hdb, SpendPoints_of_le _ _ (by decide) (by simp [sumPoints, wrap]) (by simp), hsort]
  refine ⟨_, rfl, ?_, ?_⟩
  · simp [spendLoop, mapAddAssign, buildResponse, wrap]
  · simp [spendLoop, mapAddAssign, overwrite, GetBalance, wrap]

/-- A run of the scenario of C1 with the timestamps 1 to 5. -/
theorem scenario_spend_5000_witness :
    ((⟨1, none⟩ : Time) ≠ zeroTime ∧ (⟨2, none⟩ : Time) ≠ zeroTime ∧
      (⟨3, none⟩ : Time) ≠ zeroTime ∧ (⟨4, none⟩ : Time) ≠ zeroTime ∧
      (⟨5, none⟩ : Time) ≠ zeroTime) ∧
    ((1 : Int) < 2 ∧ (2 : Int) < 3 ∧ (3 : Int) < 4 ∧ (4 : Int) < 5) ∧
    ∃ resp,
      (SpendPoints
        (addAll [] [⟨"DANNON", 300, ⟨1, none⟩⟩, ⟨"UNILEVER", 200, ⟨2, none⟩⟩,
          ⟨"DANNON", -200, ⟨3, none⟩⟩, ⟨"MILLER COORS", 10000, ⟨4, none⟩⟩,
          ⟨"DANNON", 1000, ⟨5, none⟩⟩]) ⟨5000⟩).1 = Reply.ok resp ∧
      resp.Perm [⟨"DANNON", -100⟩, ⟨"UNILEVER", -200⟩, ⟨"MILLER COORS", -4700⟩] ∧
      (GetBalance (SpendPoints
        (addAll [] [⟨"DANNON", 300, ⟨1, none⟩⟩, ⟨"UNILEVER", 200, ⟨2, none⟩⟩,
          ⟨"DANNON", -200, ⟨3, none⟩⟩, ⟨"MILLER COORS", 10000, ⟨4, none⟩⟩,
          ⟨"DANNON", 1000, ⟨5, none⟩⟩]) ⟨5000⟩).2).Perm
        [("DANNON", 1000), ("UNILEVER", 0), ("MILLER COORS", 5300)] :=
  ⟨by decide, by decide,
    scenario_spend_5000 ⟨1, none⟩ ⟨2, none⟩ ⟨3, none⟩ ⟨4, none⟩ ⟨5, none⟩ (by decide)
      (by decide) (by decide) (by decide) (by decide) (by decide) (by decide) (by decide)
      (by decide)⟩

/-- C9. `SpendPoints` keeps the number of rows and, row by row, the key, the payer and the
timestamp, and it moves the points of a row toward zero and never past it: `0 ≤ new ≤ old` when
`old ≥ 0`, and `old ≤ new ≤ 0` when `old ≤ 0`. -/
theorem SpendPoints_toward_zero (db : DB) (req : SpendPointsRequest)
    (hid : (db.map (fun t => t.ID)).Nodup) :
    (SpendPoints db req).2.length = db.length ∧
    List.Forall₂
      (fun old new =>
        new.ID = old.ID ∧ new.Payer = old.Payer ∧ new.Timestamp = old.Timestamp ∧
        (0 ≤ old.Points → 0 ≤ new.Points ∧ new.Points ≤ old.Points) ∧
        (old.Points ≤ 0 → old.Points ≤ new.Points ∧ new.Points ≤ 0))
      db (SpendPoints db req).2 := by
  have key : List.Forall₂ Depleted db (SpendPoints db req).2 := by
    rcases SpendPoints_table db req with h | h
    · rw [h]
      exact forall₂_depleted_refl db
    · rw [h]
      exact (overwrite_orderByTimestamp db hid _ (spendLoop_depleted _ _ _)).1
  exact ⟨key.length_eq.symm, key⟩

/-- C9 on a ledger with a negative row: a spend of 150 empties the rows -200 and +300 and takes
50 from the row +100. -/
theorem SpendPoints_toward_zero_witness :
    (ledgerMixed.map (fun t => t.ID)).Nodup ∧
    (SpendPoints ledgerMixed ⟨150⟩).2 = [⟨1, "A", 0, 1⟩, ⟨2, "B", 0, 2⟩, ⟨3, "A", 50, 3⟩] ∧
    ((SpendPoints ledgerMixed ⟨150⟩).2.length = ledgerMixed.length ∧
      List.Forall₂
        (fun old new =>
          new.ID = old.ID ∧ new.Payer = old.Payer ∧ new.Timestamp = old.Timestamp ∧
          (0 ≤ old.Points → 0 ≤ new.Points ∧ new.Points ≤ old.Points) ∧
          (old.Points ≤ 0 → old.Points ≤ new.Points ∧ new.Points ≤ 0))
        ledgerMixed (SpendPoints ledgerMixed ⟨150⟩).2) :=
  ⟨by decide, by decide, SpendPoints_toward_zero ledgerMixed ⟨150⟩ (by decide)⟩

/-- C3. List the ledger in ascending timestamp order before and after a spend. If the spend
changes the points of the transaction at position `j`, every transaction at a position `i < j`
has points `0` afterwards, whoever its payer is; and at most one position holds a transaction
that was changed and not emptied. -/
theorem SpendPoints_oldest_first (db : DB) (req : SpendPointsRequest)
    (hid : (db.map (fun t => t.ID)).Nodup) :
    (∀ i j : Nat, i < j →
      pointsAt (orderByTimestamp (SpendPoints db req).2) j ≠ pointsAt (orderByTimestamp db) j →
      pointsAt (orderByTimestamp (SpendPoints db req).2) i = some 0) ∧
    (∀ j k : Nat,
      (pointsAt (orderByTimestamp (SpendPoints db req).2) j ≠ pointsAt (orderByTimestamp db) j ∧
        pointsAt (orderByTimestamp (SpendPoints db req).2) j ≠ some 0) →
      (pointsAt (orderByTimestamp (SpendPoints db req).2) k ≠ pointsAt (orderByTimestamp db) k ∧
        pointsAt (orderByTimestamp (SpendPoints db req).2) k ≠ some 0) →
      j = k) := by
  have hafter : orderByTimestamp (SpendPoints db req).2 = orderByTimestamp db
      ∨ orderByTimestamp (SpendPoints db req).2
          = (spendLoop (orderByTimestamp db) req.Points []).1 := by
    rcases SpendPoints_table db req with h | h
    · rw [h]; exact Or.inl rfl
    · rw [h]
      exact Or.inr (overwrite_orderByTimestamp db hid _ (spendLoop_depleted _ _ _)).2
  rcases hafter with he | he
  · rw [he]
    exact ⟨fun i j _ hc => absurd rfl hc, fun j k hj _ => absurd rfl hj.1⟩
  · rw [he]
    obtain ⟨n, hn1, hn2⟩ := spendLoop_shape (orderByTimestamp db) req.Points []
    have hle : ∀ j : Nat, pointsAt (spendLoop (orderByTimestamp db) req.Points []).1 j
          ≠ pointsAt (orderByTimestamp db) j → j ≤ n := by
      intro j hc
      by_contra hlt
      exact hc (by unfold pointsAt; rw [hn2 j (by omega)])
    have heq : ∀ j : Nat, (pointsAt (spendLoop (orderByTimestamp db) req.Points []).1 j
          ≠ pointsAt (orderByTimestamp db) j ∧
        pointsAt (spendLoop (orderByTimestamp db) req.Points []).1 j ≠ some 0) → j = n := by
      intro j hj
      have h1 := hle j hj.1
      by_contra hne
      exact hj.2 (hn1 j (by omega))
    refine ⟨fun i j hij hc => hn1 i (by have := hle j hc; omega), fun j k hj hk => ?_⟩
    rw [heq j hj, heq k hk]

/-- C3 on a ledger of three rows: a spend of 150 changes the row at position 2, and the rows at
positions 0 and 1 are empty afterwards. -/
theorem SpendPoints_oldest_first_witness :
    (ledgerMixed.map (fun t => t.ID)).Nodup ∧
    (orderByTimestamp (SpendPoints ledgerMixed ⟨150⟩).2).map (fun t => t.Points) = [0, 0, 50] ∧
    ((∀ i j : Nat, i < j →
      pointsAt (orderByTimestamp (SpendPoints ledgerMixed ⟨150⟩).2) j
        ≠ pointsAt (orderByTimestamp ledgerMixed) j →
      pointsAt (orderByTimestamp (SpendPoints ledgerMixed ⟨150⟩).2) i = some 0) ∧
    (∀ j k : Nat,
      (pointsAt (orderByTimestamp (SpendPoints ledgerMixed ⟨150⟩).2) j
          ≠ pointsAt (orderByTimestamp ledgerMixed) j ∧
        pointsAt (orderByTimestamp (SpendPoints ledgerMixed ⟨150⟩).2) j ≠ some 0) →
      (pointsAt (orderByTimestamp (SpendPoints ledgerMixed ⟨150⟩).2) k
          ≠ pointsAt (orderByTimestamp ledgerMixed) k ∧
        pointsAt (orderByTimestamp (SpendPoints ledgerMixed ⟨150⟩).2) k ≠ some 0) →
      j = k)) :=
  ⟨by decide, by decide, SpendPoints_oldest_first ledgerMixed ⟨150⟩ (by decide)⟩

/-- C4. For every ledger and every amount `> 0` for which the spend answers 200, if no
transaction on which the loop body runs has negative points (which holds when no transaction at
all has negative points), the absolute values of the deltas of the response add up to the
amount. -/
theorem SpendPoints_sum_abs (db : DB) (req : SpendPointsRequest)
    (resp : List SpendPointsResponse) (hpos : 0 < req.Points)
    (hok : (SpendPoints db req).1 = Reply.ok resp)
    (hv : ∀ t ∈ visited (orderByTimestamp db) req.Points, 0 ≤ t.Points) :
    (resp.map (fun e => |e.Points|)).sum = req.Points := by
  obtain ⟨_, htot, _, hresp, _⟩ := SpendPoints_ok_inv db req resp hok
  have hrange := wrap_inRange (sumPoints db)
  unfold InRange at hrange
  have hN := negPoints_eq_zero _ hv
  have hex := spendLoop_exact (orderByTimestamp db) req.Points [] (by omega)
    (by rw [hN]; omega)
  have hzero : (spendLoop (orderByTimestamp db) req.Points []).2.1 = 0 := by
    by_contra hne
    obtain ⟨j1, j2⟩ := hex.2.2 (by omega)
    rw [j2] at hv
    have hs := sumPoints_nonneg _ hv
    rw [sumPoints_orderByTimestamp] at j1 hs
    have hw : wrap (sumPoints db) = sumPoints db := wrap_of_inRange ⟨by omega, by omega⟩
    omega
  have hmap := spendLoop_map_exact (orderByTimestamp db) req.Points [] 9223372036854775807
    (by omega) (by omega) (by rw [hN]; omega) (by simp)
  have hnn := spendLoop_nonneg (orderByTimestamp db) req.Points [] (by omega) (by omega) hv
    (by simp)
  rw [hresp, sum_abs_buildResponse _ (fun e he => ⟨hnn e he, by have := hmap.2 e he; omega⟩),
    hmap.1, hzero]
  simp [mapSum]

/-- C4 on a ledger without negative rows: a spend of 700 reports A -500 and B -200. -/
theorem SpendPoints_sum_abs_witness :
    ((0 : Int) < 700 ∧
      (SpendPoints ledgerPositive ⟨700⟩).1 = Reply.ok [⟨"A", -500⟩, ⟨"B", -200⟩] ∧
      ∀ t ∈ visited (orderByTimestamp ledgerPositive) 700, 0 ≤ t.Points) ∧
    (([⟨"A", -500⟩, ⟨"B", -200⟩] : List SpendPointsResponse).map (fun e => |e.Points|)).sum
      = 700 :=
  ⟨by decide,
    SpendPoints_sum_abs ledgerPositive ⟨700⟩ [⟨"A", -500⟩, ⟨"B", -200⟩] (by decide) (by decide)
      (by decide)⟩

/-- C2, as stated, fails: after two credits of `2^63 - 1` to the payer A the sum of the points of
all transactions, `2^64 - 2`, is not less than the requested amount 1, yet the spend is answered
with "Not enough points": the total the handler computes in an `int` is `-2`. -/
theorem spend_refused_above_total :
    ¬ ((SpendPoints (addAll [] creditsHuge) ⟨1⟩).1 = Reply.notEnoughPoints
        ↔ sumPoints (addAll [] creditsHuge) < 1) := by
  decide

/-- C2, amended. For every ledger and every amount other than zero, `SpendPoints` answers
"Not enough points" exactly when the sum of the points of all transactions, reduced to the
range of `int`, is less than the amount, which is the sum itself when it lies in that range; and
whenever it answers so, the ledger is the same afterwards, hence so is the balance. -/
theorem SpendPoints_notEnoughPoints_iff (db : DB) (req : SpendPointsRequest)
    (h : req.Points ≠ 0) :
    ((SpendPoints db req).1 = Reply.notEnoughPoints ↔ wrap (sumPoints db) < req.Points) ∧
    (InRange (sumPoints db) →
      ((SpendPoints db req).1 = Reply.notEnoughPoints ↔ sumPoints db < req.Points)) ∧
    ((SpendPoints db req).1 = Reply.notEnoughPoints →
      (SpendPoints db req).2 = db ∧ GetBalance (SpendPoints db req).2 = GetBalance db) := by
  have key : ((SpendPoints db req).1 = Reply.notEnoughPoints ↔ wrap (sumPoints db) < req.Points)
      ∧ ((SpendPoints db req).1 = Reply.notEnoughPoints → (SpendPoints db req).2 = db) := by
    by_cases ht : wrap (sumPoints db) < req.Points
    · rw [SpendPoints_of_lt db req h ht]
      simp [ht]
    · by_cases hne : db = []
      · subst hne
        rw [SpendPoints_of_nil req h ht]
        simp [ht]
      · rw [SpendPoints_of_le db req h ht hne]
        simp [ht]
  refine ⟨key.1, ?_, ?_⟩
  · intro hr
    rw [key.1, wrap_of_inRange hr]
  · intro hf
    have := key.2 hf
    exact ⟨this, by rw [this]⟩

/-- The amended C2 on a ledger with total 100: a spend of 101 is refused and changes nothing. -/
theorem SpendPoints_notEnoughPoints_iff_witness :
    (101 : Int) ≠ 0 ∧
    (((SpendPoints ledgerSmall ⟨101⟩).1 = Reply.notEnoughPoints
        ↔ wrap (sumPoints ledgerSmall) < 101) ∧
      (InRange (sumPoints ledgerSmall) →
        ((SpendPoints ledgerSmall ⟨101⟩).1 = Reply.notEnoughPoints
          ↔ sumPoints ledgerSmall < 101)) ∧
      ((SpendPoints ledgerSmall ⟨101⟩).1 = Reply.notEnoughPoints →
        (SpendPoints ledgerSmall ⟨101⟩).2 = ledgerSmall ∧
          GetBalance (SpendPoints ledgerSmall ⟨101⟩).2 = GetBalance ledgerSmall)) :=
  ⟨by decide, SpendPoints_notEnoughPoints_iff ledgerSmall ⟨101⟩ (by decide)⟩

/-- C5, as stated, fails: after two credits of `2^63 - 1` to the payer A the balance of A is
`-2`, not the sum `2^64 - 2` of the points credited to A. -/
theorem balance_not_exact_sum :
    ¬ (mapLookup (GetBalance (addAll [] creditsHuge)) "A"
        = some (creditedPoints "A" creditsHuge)) := by
  decide

/-- C5, amended. After any sequence of `AddPoints` requests on the empty ledger and no spend,
the balance has an entry for a payer exactly when some accepted request names that payer, and a
payer without transaction has no entry (rather than an entry `0`); the value of the entry is the
sum of the points of the accepted requests naming the payer, reduced to the range of `int`, which
is the sum itself when it lies in that range. -/
theorem GetBalance_addAll (reqs : List AddPointsRequest) (p : String) :
    (mapLookup (GetBalance (addAll [] reqs)) p
      = if p ∈ (reqs.filter (fun r => bindAddPoints r)).map (fun r => r.Payer) then
          some (wrap (creditedPoints p reqs))
        else none) ∧
    (p ∈ (reqs.filter (fun r => bindAddPoints r)).map (fun r => r.Payer) →
      InRange (creditedPoints p reqs) →
      mapLookup (GetBalance (addAll [] reqs)) p = some (creditedPoints p reqs)) := by
  have key : mapLookup (GetBalance (addAll [] reqs)) p
      = if p ∈ (reqs.filter (fun r => bindAddPoints r)).map (fun r => r.Payer) then
          some (wrap (creditedPoints p reqs))
        else none := by
    rw [mapLookup_GetBalance, payerPoints_addAll]
    have hm := mem_payers_addAll p [] reqs
    simp only [List.map_nil, List.not_mem_nil, false_or] at hm
    by_cases h : p ∈ (reqs.filter (fun r => bindAddPoints r)).map (fun r => r.Payer)
    · rw [if_pos (hm.2 h), if_pos h]
      simp [payerPoints]
    · rw [if_neg (fun h' => h (hm.1 h')), if_neg h]
  refine ⟨key, ?_⟩
  intro hp hr
  rw [key, if_pos hp, wrap_of_inRange hr]

/-- C10, as stated, fails: on the ledger built by the credits A `-(2^63 - 1)`, B `2^63 - 1`,
C `2^63 - 1` the total, `2^63 - 1`, is not below the amount 5, yet the first step of the walk
leaves a negative amount to spend, and the total of the ledger goes up instead of down by 5. -/
theorem spend_walk_overflows :
    ((0 : Int) < 5 ∧ (5 : Int) ≤ sumPoints ledgerSwing) ∧
    (spendLoop (orderByTimestamp ledgerSwing) 5 []).2.1 < 0 ∧
    sumPoints (SpendPoints ledgerSwing ⟨5⟩).2 ≠ sumPoints ledgerSwing - 5 := by
  decide

/-- C10, amended. For every ledger, rows with zero or negative points included, and every
amount `> 0` not above the total, provided the total is below `2^63` and the amount plus the
absolute values of the negative points is below `2^63` (so that no addition of the handler
leaves the range of `int`): the amount that remains to be spent is never negative, whatever the
number `k` of rows of the ordered ledger the loop has been run over, and is `0` when the loop
ends; the spend answers 200, the deltas of its response add up to minus the amount, and the
total of the ledger goes down by the amount. -/
theorem SpendPoints_exact (db : DB) (req : SpendPointsRequest)
    (hid : (db.map (fun t => t.ID)).Nodup) (hpos : 0 < req.Points)
    (htot : req.Points ≤ sumPoints db) (hmax : sumPoints db < 9223372036854775808)
    (hneg : req.Points + negPoints db < 9223372036854775808) :
    (∀ k, 0 ≤ (spendLoop ((orderByTimestamp db).take k) req.Points []).2.1) ∧
    (spendLoop (orderByTimestamp db) req.Points []).2.1 = 0 ∧
    (∃ resp, (SpendPoints db req).1 = Reply.ok resp ∧
      (resp.map (fun e => e.Points)).sum = -req.Points) ∧
    sumPoints (SpendPoints db req).2 = sumPoints db - req.Points := by
  have hne : req.Points ≠ 0 := by omega
  have hw : wrap (sumPoints db) = sumPoints db := wrap_of_inRange ⟨by omega, by omega⟩
  have hdb : db ≠ [] := by
    intro he
    rw [he] at htot
    simp [sumPoints] at htot
    omega
  have hNdb : negPoints (orderByTimestamp db) = negPoints db :=
    negPoints_perm (orderByTimestamp_perm db)
  have hN := negPoints_visited_le (orderByTimestamp db) req.Points
  have hex := spendLoop_exact (orderByTimestamp db) req.Points [] (by omega) (by omega)
  have hzero : (spendLoop (orderByTimestamp db) req.Points []).2.1 = 0 := by
    by_contra hc
    obtain ⟨j1, _⟩ := hex.2.2 (by omega)
    rw [sumPoints_orderByTimestamp] at j1
    omega
  have hrun := SpendPoints_of_le db req hne (by rw [hw]; omega) hdb
  have hok : (SpendPoints db req).1
      = Reply.ok (buildResponse (spendLoop (orderByTimestamp db) req.Points []).2.2) := by
    rw [hrun]
  have hmap := spendLoop_map_exact (orderByTimestamp db) req.Points [] 9223372036854775807
    (by omega) (by omega) (by omega) (by simp)
  refine ⟨?_, hzero, ⟨_, hok, ?_⟩, ?_⟩
  · intro k
    have h1 := negPoints_visited_le ((orderByTimestamp db).take k) req.Points
    have h2 := negPoints_take_le (orderByTimestamp db) k
    exact (spendLoop_exact ((orderByTimestamp db).take k) req.Points [] (by omega)
      (by omega)).1
  · rw [sum_Points_buildResponse _ 9223372036854775807 (by omega) hmap.2, hmap.1, hzero]
    simp [mapSum]
  · rw [← sumPoints_perm (SpendPoints_ok_table db req _ hid hok).2.2, hex.2.1, hzero,
      sumPoints_orderByTimestamp]
    ring

/-- The amended C10 on a ledger that starts with a negative row: a spend of 150 out of a total
of 200. -/
theorem SpendPoints_exact_witness :
    ((ledgerMixed.map (fun t => t.ID)).Nodup ∧ (0 : Int) < 150 ∧
      (150 : Int) ≤ sumPoints ledgerMixed ∧ sumPoints ledgerMixed < 9223372036854775808 ∧
      150 + negPoints ledgerMixed < 9223372036854775808) ∧
    ((∀ k, 0 ≤ (spendLoop ((orderByTimestamp ledgerMixed).take k) 150 []).2.1) ∧
      (spendLoop (orderByTimestamp ledgerMixed) 150 []).2.1 = 0 ∧
      (∃ resp, (SpendPoints ledgerMixed ⟨150⟩).1 = Reply.ok resp ∧
        (resp.map (fun e => e.Points)).sum = -150) ∧
      sumPoints (SpendPoints ledgerMixed ⟨150⟩).2 = sumPoints ledgerMixed - 150) :=
  ⟨by decide,
    SpendPoints_exact ledgerMixed ⟨150⟩ (by decide) (by decide) (by decide) (by decide)
      (by decide)⟩

/-- C6, as stated, fails: on the ledger built by the credits A -300, A +300, B +500 a spend of
100 answers 200 with the entries (A, 0) and (B, -100), so a returned entry has delta `0`. -/
theorem spend_reports_zero_delta :
    ¬ ∀ resp, (SpendPoints ledgerCancel ⟨100⟩).1 = Reply.ok resp →
        ∀ e ∈ resp, e.Points ≠ 0 := by
  intro h
  have hrun : (SpendPoints ledgerCancel ⟨100⟩).1 = Reply.ok [⟨"A", 0⟩, ⟨"B", -100⟩] := by
    decide
  exact h _ hrun ⟨"A", 0⟩ (by simp) rfl

/-- C6, amended. For every spend answered 200, the response holds exactly one entry for each
payer of a transaction on which the loop body ran, and no other entry; the delta of the entry is
minus the amount taken from the payer (the fall of the sum of the payer's points), reduced to
the range of `int`, which is minus that amount itself when it lies in that range. The delta is
`0` when the payer's visited transactions cancel out or were empty already. -/
theorem SpendPoints_response_entries (db : DB) (req : SpendPointsRequest)
    (resp : List SpendPointsResponse) (hid : (db.map (fun t => t.ID)).Nodup)
    (hok : (SpendPoints db req).1 = Reply.ok resp) :
    (resp.map (fun e => e.Payer)).Nodup ∧
    (∀ p, p ∈ resp.map (fun e => e.Payer)
      ↔ p ∈ (visited (orderByTimestamp db) req.Points).map (fun t => t.Payer)) ∧
    (∀ p, responseDelta resp p
      = if p ∈ (visited (orderByTimestamp db) req.Points).map (fun t => t.Payer) then
          some (wrap (-(payerPoints p db - payerPoints p (SpendPoints db req).2)))
        else none) ∧
    (∀ p, p ∈ (visited (orderByTimestamp db) req.Points).map (fun t => t.Payer) →
      InRange (-(payerPoints p db - payerPoints p (SpendPoints db req).2)) →
      responseDelta resp p
        = some (-(payerPoints p db - payerPoints p (SpendPoints db req).2))) := by
  obtain ⟨_, _, _, hresp, _⟩ := SpendPoints_ok_inv db req resp hok
  have htab := SpendPoints_ok_table db req resp hid hok
  have hkeys : ∀ p, p ∈ mapKeys (spendLoop (orderByTimestamp db) req.Points []).2.2
      ↔ p ∈ (visited (orderByTimestamp db) req.Points).map (fun t => t.Payer) := by
    intro p
    rw [spendLoop_mem_mapKeys]
    simp [mapKeys]
  have hdelta : ∀ p, responseDelta resp p
      = if p ∈ (visited (orderByTimestamp db) req.Points).map (fun t => t.Payer) then
          some (wrap (-(payerPoints p db - payerPoints p (SpendPoints db req).2)))
        else none := by
    intro p
    have hget := spendLoop_mapGet (orderByTimestamp db) req.Points [] p
    rw [payerPoints_perm p (orderByTimestamp_perm db), payerPoints_perm p htab.2.2] at hget
    have h0 : mapGet [] p = 0 := rfl
    rw [h0] at hget
    rw [hresp, responseDelta_buildResponse, mapLookup_eq_ite]
    by_cases hp : p ∈ (visited (orderByTimestamp db) req.Points).map (fun t => t.Payer)
    · rw [if_pos ((hkeys p).2 hp), if_pos hp]
      simp only [Option.map_some', Option.some.injEq]
      unfold wrap at hget ⊢
      omega
    · rw [if_neg (fun h => hp ((hkeys p).1 h)), if_neg hp]
      rfl
  refine ⟨?_, ?_, hdelta, ?_⟩
  · rw [hresp, map_Payer_buildResponse]
    exact spendLoop_mapKeys_nodup _ _ _ (by simp [mapKeys])
  · intro p
    rw [hresp, map_Payer_buildResponse]
    exact hkeys p
  · intro p hp hr
    rw [hdelta p, if_pos hp, wrap_of_inRange hr]

/-- The amended C6 on the ledger A -300, A +300, B +500 and a spend of 100. -/
theorem SpendPoints_response_entries_witness :
    ((ledgerCancel.map (fun t => t.ID)).Nodup ∧
      (SpendPoints ledgerCancel ⟨100⟩).1 = Reply.ok [⟨"A", 0⟩, ⟨"B", -100⟩]) ∧
    ((([⟨"A", 0⟩, ⟨"B", -100⟩] : List SpendPointsResponse).map (fun e => e.Payer)).Nodup ∧
    (∀ p, p ∈ ([⟨"A", 0⟩, ⟨"B", -100⟩] : List SpendPointsResponse).map (fun e => e.Payer)
      ↔ p ∈ (visited (orderByTimestamp ledgerCancel) 100).map (fun t => t.Payer)) ∧
    (∀ p, responseDelta [⟨"A", 0⟩, ⟨"B", -100⟩] p
      = if p ∈ (visited (orderByTimestamp ledgerCancel) 100).map (fun t => t.Payer) then
          some (wrap (-(payerPoints p ledgerCancel
            - payerPoints p (SpendPoints ledgerCancel ⟨100⟩).2)))
        else none) ∧
    (∀ p, p ∈ (visited (orderByTimestamp ledgerCancel) 100).map (fun t => t.Payer) →
      InRange (-(payerPoints p ledgerCancel
        - payerPoints p (SpendPoints ledgerCancel ⟨100⟩).2)) →
      responseDelta [⟨"A", 0⟩, ⟨"B", -100⟩] p
        = some (-(payerPoints p ledgerCancel
            - payerPoints p (SpendPoints ledgerCancel ⟨100⟩).2)))) :=
  ⟨by decide,
    SpendPoints_response_entries ledgerCancel ⟨100⟩ [⟨"A", 0⟩, ⟨"B", -100⟩] (by decide)
      (by decide)⟩

/-- C7, as stated, fails: on the ledger built by two credits of `-(2^63 - 1)` to the payer A a
spend of 1 answers 200 with the entry (A, `2^63 - 1`), and the balance of A goes from `2` to
`-(2^63 - 1)`, which is not `2` plus the delta. -/
theorem balance_not_before_plus_delta :
    ¬ ∀ resp, (SpendPoints ledgerDebts ⟨1⟩).1 = Reply.ok resp →
        mapLookup (GetBalance (SpendPoints ledgerDebts ⟨1⟩).2) "A"
          = (mapLookup (GetBalance ledgerDebts) "A").map
              (fun b => b + (responseDelta resp "A").getD 0) := by
  intro h
  have hrun : (SpendPoints ledgerDebts ⟨1⟩).1 = Reply.ok [⟨"A", 9223372036854775807⟩] := by
    decide
  have := h _ hrun
  revert this
  decide

/-- C7, amended. After a spend answered 200, for every payer, the balance holds the balance from
before the spend plus the delta the response reports for the payer, the sum being reduced to the
range of `int`, which is the sum itself when it lies in that range (a payer without entry in the
response counts as delta `0` and keeps its balance), and the payers that have a balance are the
same before and after. -/
theorem SpendPoints_balance (db : DB) (req : SpendPointsRequest)
    (resp : List SpendPointsResponse) (hid : (db.map (fun t => t.ID)).Nodup)
    (hok : (SpendPoints db req).1 = Reply.ok resp) (p : String) :
    mapLookup (GetBalance (SpendPoints db req).2) p
      = (mapLookup (GetBalance db) p).map
          (fun b => wrap (b + (responseDelta resp p).getD 0)) ∧
    (∀ b, mapLookup (GetBalance db) p = some b →
      InRange (b + (responseDelta resp p).getD 0) →
      mapLookup (GetBalance (SpendPoints db req).2) p
        = some (b + (responseDelta resp p).getD 0)) ∧
    (responseDelta resp p = none →
      mapLookup (GetBalance (SpendPoints db req).2) p = mapLookup (GetBalance db) p) ∧
    (p ∈ mapKeys (GetBalance (SpendPoints db req).2) ↔ p ∈ mapKeys (GetBalance db)) := by
  obtain ⟨_, _, _, hresp, _⟩ := SpendPoints_ok_inv db req resp hok
  have htab := SpendPoints_ok_table db req resp hid hok
  have hpay := forall₂_depleted_map_Payer htab.1
  have hget := spendLoop_mapGet (orderByTimestamp db) req.Points [] p
  rw [payerPoints_perm p (orderByTimestamp_perm db), payerPoints_perm p htab.2.2] at hget
  have h0 : mapGet [] p = 0 := rfl
  rw [h0] at hget
  have hdelta : (responseDelta resp p).getD 0
      = wrap (-mapGet (spendLoop (orderByTimestamp db) req.Points []).2.2 p) := by
    rw [hresp, responseDelta_getD_buildResponse]
  have hmain : mapLookup (GetBalance (SpendPoints db req).2) p
      = (mapLookup (GetBalance db) p).map
          (fun b => wrap (b + (responseDelta resp p).getD 0)) := by
    rw [mapLookup_GetBalance, mapLookup_GetBalance, hpay, hdelta]
    by_cases hp : p ∈ db.map (fun t => t.Payer)
    · simp only [hp, if_true, Option.map_some', Option.some.injEq]
      unfold wrap at hget ⊢
      omega
    · simp [hp]
  refine ⟨hmain, ?_, ?_, ?_⟩
  · intro b hb hr
    rw [hmain, hb]
    simp only [Option.map_some', wrap_of_inRange hr]
  · intro hnone
    rw [hmain, hnone, mapLookup_GetBalance]
    by_cases hp : p ∈ db.map (fun t => t.Payer)
    · simp [hp, wrap_wrap]
    · simp [hp]
  · have h1 := mapLookup_eq_none_iff (GetBalance (SpendPoints db req).2) p
    have h2 := mapLookup_eq_none_iff (GetBalance db) p
    rw [mapLookup_GetBalance, hpay] at h1
    rw [mapLookup_GetBalance] at h2
    by_cases hp : p ∈ db.map (fun t => t.Payer)
    · simp [hp] at h1 h2
      exact ⟨fun _ => h2, fun _ => h1⟩
    · simp [hp] at h1 h2
      exact ⟨fun h => absurd h h1, fun h => absurd h h2⟩

/-- The amended C7 on the ledger A -200, B +300, A +100 and a spend of 150, for the payer B: the
response reports -300 for B and the balance of B goes from 300 to 0. -/
theorem SpendPoints_balance_witness :
    ((ledgerMixed.map (fun t => t.ID)).Nodup ∧
      (SpendPoints ledgerMixed ⟨150⟩).1 = Reply.ok [⟨"A", 150⟩, ⟨"B", -300⟩]) ∧
    (mapLookup (GetBalance (SpendPoints ledgerMixed ⟨150⟩).2) "B"
      = (mapLookup (GetBalance ledgerMixed) "B").map
          (fun b => wrap (b + (responseDelta [⟨"A", 150⟩, ⟨"B", -300⟩] "B").getD 0)) ∧
    (∀ b, mapLookup (GetBalance ledgerMixed) "B" = some b →
      InRange (b + (responseDelta [⟨"A", 150⟩, ⟨"B", -300⟩] "B").getD 0) →
      mapLookup (GetBalance (SpendPoints ledgerMixed ⟨150⟩).2) "B"
        = some (b + (responseDelta [⟨"A", 150⟩, ⟨"B", -300⟩] "B").getD 0)) ∧
    (responseDelta [⟨"A", 150⟩, ⟨"B", -300⟩] "B" = none →
      mapLookup (GetBalance (SpendPoints ledgerMixed ⟨150⟩).2) "B"
        = mapLookup (GetBalance ledgerMixed) "B") ∧
    ("B" ∈ mapKeys (GetBalance (SpendPoints ledgerMixed ⟨150⟩).2)
      ↔ "B" ∈ mapKeys (GetBalance ledgerMixed))) :=
  ⟨by decide,
    SpendPoints_balance ledgerMixed ⟨150⟩ [⟨"A", 150⟩, ⟨"B", -300⟩] (by decide) (by decide)
      "B"⟩

end handlers
